import Mathlib

/-!
Verification of the version-range and marker-disjointness core of
monotrail-resolve (crate `pypi_types_crate`).

The Rust sources `version_intersection.rs`, `marker_intersection.rs`,
`normalized_marker_expression.rs`, `helper.rs` and `core_metadata.rs` are
embedded shallowly below.  External collaborators (the PEP 440 version
parser/comparator of `pep440_rs` and the PEP 508 marker evaluation) are not
part of this repository; they are modelled from the specification and from
the public PEP documents, as marked on each such definition.

All string manipulation is done on `List Char`; for the ASCII data handled
here this coincides with Rust's byte-wise strings.
-/

namespace PyPI

/-! ## Character and string helpers (byte-wise, ASCII) -/

/-- Comparison of characters by code point; on UTF-8 encoded strings this
agrees with Rust's byte-wise ordering. -/
def chCmp (a b : Char) : Ordering := compare a.toNat b.toNat

/-- Lexicographic comparison of character lists, the order Rust uses for
`String`/`str`. -/
def listCmp : List Char → List Char → Ordering
  | [], [] => .eq
  | [], _ :: _ => .lt
  | _ :: _, [] => .gt
  | a :: as, b :: bs => (chCmp a b).then (listCmp as bs)

def isDigitCh (c : Char) : Bool := 48 ≤ c.toNat && c.toNat ≤ 57

def digitVal (c : Char) : Nat := c.toNat - 48

def toLowerCh (c : Char) : Char :=
  if 65 ≤ c.toNat && c.toNat ≤ 90 then Char.ofNat (c.toNat + 32) else c

/-- Does `l` start with `p`? (`str::starts_with`) -/
def listStartsWith : List Char → List Char → Bool
  | _, [] => true
  | [], _ :: _ => false
  | a :: as, b :: bs => a == b && listStartsWith as bs

/-- Strip the suffix `suf` from `l` if present (`str::strip_suffix`). -/
def listStripSuffix (l suf : List Char) : Option (List Char) :=
  if listStartsWith l.reverse suf.reverse then some (l.take (l.length - suf.length))
  else none

/-- Does `l` end with `suf`? (`str::ends_with`) -/
def listEndsWith (l suf : List Char) : Bool := listStartsWith l.reverse suf.reverse

/-- Split at every occurrence of the separator character (`str::split`). -/
def splitOnCh (sep : Char) : List Char → List (List Char)
  | [] => [[]]
  | c :: rest =>
      let tail := splitOnCh sep rest
      if c == sep then [] :: tail
      else
        match tail with
        | [] => [[c]]
        | t :: ts => (c :: t) :: ts

/-- Parse a non-empty all-digit character list as a decimal number. -/
def parseNatCh (l : List Char) : Option Nat :=
  if l.isEmpty then none
  else if l.all isDigitCh then some (l.foldl (fun n c => n * 10 + digitVal c) 0)
  else none

/-! ## PEP 440 versions

Modelled from the spec: the repository takes `Version` from the external
`pep440_rs` crate.  The spec (section 3) requires an epoch, a non-empty
release sequence with a mutable last element, an optional local segment and
the PEP 440 total order.  We model the full PEP 440 shape (epoch, release,
pre/post/dev suffixes, local segment with numeric components) and the PEP 440
sort key. -/

/-- Pre-release phase: `a`, `b` or `rc`. -/
inductive PreKind
  | alpha
  | beta
  | rc
deriving DecidableEq, Repr

/-- Modelled from the spec: the external PEP 440 `Version`.  `localSeg`
stands for the Rust field `local` (a Lean keyword); an empty list means "no
local segment", and local components are restricted to the numeric ones. -/
structure Version where
  epoch : Nat
  release : List Nat
  pre : Option (PreKind × Nat)
  post : Option Nat
  dev : Option Nat
  localSeg : List Nat
deriving DecidableEq, Repr

/-- Comparison of an exhausted release sequence (padded with zeros) against
the remainder of the other one. -/
def releaseCmpNil : List Nat → Ordering
  | [] => .eq
  | b :: bs => (compare 0 b).then (releaseCmpNil bs)

/-- Compare release sequences, implicitly padding the shorter one with
zeros, as the PEP 440 order does. -/
def releaseCmp : List Nat → List Nat → Ordering
  | [], bs => releaseCmpNil bs
  | a :: as, [] => (compare a 0).then (releaseCmp as [])
  | a :: as, b :: bs => (compare a b).then (releaseCmp as bs)

def preKindRank : PreKind → Nat
  | .alpha => 0
  | .beta => 1
  | .rc => 2

/-- PEP 440 sort key for the pre-release segment: a dev-only version sorts
below every pre-release, a version without pre/dev suffix above them. -/
def preKey (v : Version) : Nat × Nat × Nat :=
  match v.pre with
  | some (k, n) => (1, preKindRank k, n)
  | none => if v.post == none && v.dev.isSome then (0, 0, 0) else (2, 0, 0)

/-- Sort key for the post segment: absent sorts first. -/
def postKey (v : Version) : Nat × Nat :=
  match v.post with
  | none => (0, 0)
  | some n => (1, n)

/-- Sort key for the dev segment: present sorts first. -/
def devKey (v : Version) : Nat × Nat :=
  match v.dev with
  | none => (1, 0)
  | some n => (0, n)

def cmp3 (a b : Nat × Nat × Nat) : Ordering :=
  (compare a.1 b.1).then ((compare a.2.1 b.2.1).then (compare a.2.2 b.2.2))

def cmp2 (a b : Nat × Nat) : Ordering :=
  (compare a.1 b.1).then (compare a.2 b.2)

/-- Local segments compare lexicographically; an absent (empty) local
segment sorts first. -/
def localCmp : List Nat → List Nat → Ordering
  | [], [] => .eq
  | [], _ :: _ => .lt
  | _ :: _, [] => .gt
  | a :: as, b :: bs => (compare a b).then (localCmp as bs)

/-- Modelled from the spec: the PEP 440 total order exposed by the external
`Version` (by epoch, then zero-padded release, then pre/post/dev keys, then
local segment).  `pep440_rs` also implements `PartialEq` through this
comparison, so `1.0 == 1.0.0` there. -/
def Version.cmp (x y : Version) : Ordering :=
  (compare x.epoch y.epoch).then
    ((releaseCmp x.release y.release).then
      ((cmp3 (preKey x) (preKey y)).then
        ((cmp2 (postKey x) (postKey y)).then
          ((cmp2 (devKey x) (devKey y)).then
            (localCmp x.localSeg y.localSeg)))))

/-- Semantic equality of versions, the `==` of `pep440_rs` (`Version`
implements `PartialEq` via the sort key, not structurally). -/
def verEq (x y : Version) : Bool := Version.cmp x y == .eq

/-- Rust `Option<Version>` equality, with semantic version equality. -/
def optVerEq : Option Version → Option Version → Bool
  | none, none => true
  | some x, some y => verEq x y
  | _, _ => false

/-- `Version::from_release`: a plain version from a release sequence. -/
def Version.from_release (release : List Nat) : Version :=
  ⟨0, release, none, none, none, []⟩

/-- In-place increment of the last release number, the effect of the Rust
`*release.last_mut().unwrap() += 1`.  On an empty release (impossible for
parser-produced versions, which have a non-empty release) it is the
identity. -/
def incrementLast : List Nat → List Nat
  | [] => []
  | [a] => [a + 1]
  | a :: rest => a :: incrementLast rest

/-- Modelled from the spec: the external parser `Version::from_str_star`.
The repository only ever feeds it marker strings; we model the plain
dotted-numeral grammar (`3`, `3.10`, `3.10.2`, optionally with a trailing
`.*` producing the star flag).  Everything else is a parse error (`none`).
Parser invariant from the spec: a parsed release is non-empty. -/
def Version.from_str_star (s : String) : Option (Version × Bool) :=
  let chars := s.data
  let (core, star) :=
    if listEndsWith chars ['.', '*'] then (chars.take (chars.length - 2), true)
    else (chars, false)
  let parts := splitOnCh '.' core
  match parts.mapM parseNatCh with
  | some (n :: ns) => some (⟨0, n :: ns, none, none, none, []⟩, star)
  | _ => none

/-- Modelled from the spec: the external parser `Version::from_str`; like
`from_str_star` but a star suffix is a parse error. -/
def Version.from_str (s : String) : Option Version :=
  match Version.from_str_star s with
  | some (v, false) => some v
  | _ => none

/-! ## The nine specifier operators and `VersionSpecifier` -/

/-- The `pep440_rs::Operator` enum: the nine PEP 440 comparison operators,
with the star variants of `==` and `!=` as separate constructors. -/
inductive Operator
  | Equal
  | EqualStar
  | ExactEqual
  | NotEqual
  | NotEqualStar
  | TildeEqual
  | LessThan
  | LessThanEqual
  | GreaterThan
  | GreaterThanEqual
deriving DecidableEq, Repr

/-- The external `pep440_rs::VersionSpecifier`: an operator/version pair. -/
structure VersionSpecifier where
  operator : Operator
  version : Version
deriving DecidableEq, Repr

/-- Modelled from the spec: `VersionSpecifier::new(op, version, star)`.
The star flag turns `==`/`!=` into their star variants and is invalid with
any other operator; `~=` requires at least two release numbers. -/
def VersionSpecifier.new (operator : Operator) (version : Version) (star : Bool) :
    Option VersionSpecifier :=
  if star then
    match operator with
    | .Equal => some ⟨.EqualStar, version⟩
    | .NotEqual => some ⟨.NotEqualStar, version⟩
    | _ => none
  else if operator == .TildeEqual && version.release.length < 2 then none
  else some ⟨operator, version⟩

/-! ## `version_intersection.rs` -/

/-- Port of `VersionRange`: an interval over PEP 440 versions.  `none` for
`min` is `-inf`, `none` for `max` is `inf`. -/
structure VersionRange where
  min : Option Version
  min_inclusive : Bool
  max : Option Version
  max_inclusive : Bool
deriving DecidableEq, Repr

/-- Rust's derived `Ord` on `Option<Version>`: `None` sorts below `Some`.
Used by `intersect` for the minimum, where `None` meaning `-inf` makes this
the intended order. -/
def optMinCmp : Option Version → Option Version → Ordering
  | none, none => .eq
  | none, some _ => .lt
  | some _, none => .gt
  | some a, some b => Version.cmp a b

/-- First overlap test of `VersionRange::is_disjoint`: `self.max` against
`other.min`. -/
def VersionRange.overlapping1 (self other : VersionRange) : Bool :=
  (match self.max, other.min with
   | some left_max, some right_min => Version.cmp left_max right_min == .gt
   | _, _ => true)
  || (optVerEq self.max other.min && self.max_inclusive && other.min_inclusive)

/-- Second overlap test of `VersionRange::is_disjoint`: `other.max` against
`self.min`. -/
def VersionRange.overlapping2 (self other : VersionRange) : Bool :=
  (match other.max, self.min with
   | some right_max, some left_min => Version.cmp right_max left_min == .gt
   | _, _ => true)
  || (optVerEq self.min other.max && self.min_inclusive && other.max_inclusive)

/-- Port of `VersionRange::is_disjoint`. -/
def VersionRange.is_disjoint (self other : VersionRange) : Bool :=
  !(self.overlapping1 other && self.overlapping2 other)

/-- Port of `VersionRange::intersect` (callers guarantee the two ranges
overlap). -/
def VersionRange.intersect (self other : VersionRange) : VersionRange :=
  let minPair :=
    match optMinCmp self.min other.min with
    | .gt => (self.min, self.min_inclusive)
    | .eq => (self.min, self.min_inclusive && other.min_inclusive)
    | .lt => (other.min, other.min_inclusive)
  let maxPair :=
    match self.max, other.max with
    | none, none => (none, true)
    | none, some _ => (other.max, other.max_inclusive)
    | some _, none => (self.max, self.max_inclusive)
    | some _, some _ =>
        match optMinCmp self.max other.max with
        | .lt => (self.max, self.max_inclusive)
        | .eq => (self.max, self.max_inclusive && other.max_inclusive)
        | .gt => (other.max, other.max_inclusive)
  ⟨minPair.1, minPair.2, maxPair.1, maxPair.2⟩

/-- Port of `version_specifier_to_ranges`: each specifier becomes one or two
ranges, the second only for `!=` and `!= X.*`. -/
def version_specifier_to_ranges (specifier : VersionSpecifier) :
    VersionRange × Option VersionRange :=
  match specifier.operator with
  | .Equal =>
      (⟨some specifier.version, true, some specifier.version, true⟩, none)
  | .EqualStar =>
      let max := { specifier.version with release := incrementLast specifier.version.release }
      (⟨some specifier.version, true, some max, false⟩, none)
  | .ExactEqual =>
      (⟨some specifier.version, true, some specifier.version, true⟩, none)
  | .NotEqual =>
      (⟨none, true, some specifier.version, false⟩,
       some ⟨some specifier.version, false, none, true⟩)
  | .NotEqualStar =>
      let larger := { specifier.version with release := incrementLast specifier.version.release }
      (⟨none, true, some specifier.version, false⟩,
       some ⟨some larger, true, none, true⟩)
  | .TildeEqual =>
      let max := { specifier.version with
                   release := incrementLast specifier.version.release.dropLast }
      (⟨some specifier.version, true, some max, false⟩, none)
  | .LessThan =>
      (⟨none, true, some specifier.version, false⟩, none)
  | .LessThanEqual =>
      (⟨none, true, some specifier.version, true⟩, none)
  | .GreaterThan =>
      (⟨some specifier.version, false, none, true⟩, none)
  | .GreaterThanEqual =>
      (⟨some specifier.version, true, none, true⟩, none)

/-- Port of `version_specifiers_to_ranges`: fold the conjunction of
specifiers, starting from the universal range, intersecting with the one or
two ranges of each specifier and discarding empty intersections. -/
def version_specifiers_to_ranges (specifiers : List VersionSpecifier) :
    List VersionRange :=
  specifiers.foldl
    (fun left_merged left_specifier =>
      let ranges := version_specifier_to_ranges left_specifier
      left_merged.flatMap (fun existing =>
        (if !existing.is_disjoint ranges.1 then [existing.intersect ranges.1] else [])
        ++ (match ranges.2 with
            | some range2 =>
                if !existing.is_disjoint range2 then [existing.intersect range2] else []
            | none => [])))
    [⟨none, true, none, true⟩]

/-- Port of `is_disjoint_version_specifiers`: true iff no pair of merged
ranges, one from each side, overlaps. -/
def is_disjoint_version_specifiers (left right : List VersionSpecifier) : Bool :=
  (version_specifiers_to_ranges left).all (fun left_range =>
    (version_specifiers_to_ranges right).all (fun right_range =>
      left_range.is_disjoint right_range))

/-! ## PEP 508 marker model (external `pep508_rs` types) -/

/-- The three environment keys typed as versions. -/
inductive MarkerValueVersion
  | ImplementationVersion
  | PythonFullVersion
  | PythonVersion
deriving DecidableEq, Repr

/-- The environment keys typed as strings. -/
inductive MarkerValueString
  | ImplementationName
  | OsName
  | PlatformMachine
  | PlatformPythonImplementation
  | PlatformRelease
  | PlatformSystem
  | PlatformVersion
  | SysPlatform
deriving DecidableEq, Repr

/-- One side of a marker expression. -/
inductive MarkerValue
  | MarkerEnvVersion (key : MarkerValueVersion)
  | MarkerEnvString (key : MarkerValueString)
  | Extra
  | QuotedString (s : String)
deriving DecidableEq, Repr

/-- The marker comparison operators of PEP 508. -/
inductive MarkerOperator
  | Equal
  | NotEqual
  | GreaterThan
  | GreaterEqual
  | LessThan
  | LessEqual
  | TildeEqual
  | In
  | NotIn
deriving DecidableEq, Repr

/-- A marker atom: left value, operator, right value. -/
structure MarkerExpression where
  l_value : MarkerValue
  operator : MarkerOperator
  r_value : MarkerValue
deriving DecidableEq, Repr

/-- A marker tree: atoms combined with `and` and `or`. -/
inductive MarkerTree
  | Expression (e : MarkerExpression)
  | And (l : List MarkerTree)
  | Or (l : List MarkerTree)

/-! ### Display and Debug forms

The DNF engine sorts atoms by their `Display` string and conjunctions by
`(length, Debug string)`.  These renderings mirror `pep508_rs`'s `Display`
implementation and Rust's derived `Debug`. -/

/-- The single-quote character used by the marker `Display` form. -/
def squote : Char := Char.ofNat 39

/-- The double-quote character used by the derived `Debug` form. -/
def dquote : Char := Char.ofNat 34

def displayMarkerValueVersion : MarkerValueVersion → List Char
  | .ImplementationVersion => "implementation_version".data
  | .PythonFullVersion => "python_full_version".data
  | .PythonVersion => "python_version".data

def displayMarkerValueString : MarkerValueString → List Char
  | .ImplementationName => "implementation_name".data
  | .OsName => "os_name".data
  | .PlatformMachine => "platform_machine".data
  | .PlatformPythonImplementation => "platform_python_implementation".data
  | .PlatformRelease => "platform_release".data
  | .PlatformSystem => "platform_system".data
  | .PlatformVersion => "platform_version".data
  | .SysPlatform => "sys_platform".data

def displayMarkerValue : MarkerValue → List Char
  | .MarkerEnvVersion key => displayMarkerValueVersion key
  | .MarkerEnvString key => displayMarkerValueString key
  | .Extra => "extra".data
  | .QuotedString s => squote :: s.data ++ [squote]

def displayMarkerOperator : MarkerOperator → List Char
  | .Equal => "==".data
  | .NotEqual => "!=".data
  | .GreaterThan => ">".data
  | .GreaterEqual => ">=".data
  | .LessThan => "<".data
  | .LessEqual => "<=".data
  | .TildeEqual => "~=".data
  | .In => "in".data
  | .NotIn => "not in".data

/-- The `Display` form `"{l_value} {operator} {r_value}"`, the sort key for
atoms inside a DNF conjunction. -/
def displayExpr (m : MarkerExpression) : List Char :=
  displayMarkerValue m.l_value ++ [' '] ++ displayMarkerOperator m.operator
    ++ [' '] ++ displayMarkerValue m.r_value

def debugMarkerValueVersion : MarkerValueVersion → List Char
  | .ImplementationVersion => "ImplementationVersion".data
  | .PythonFullVersion => "PythonFullVersion".data
  | .PythonVersion => "PythonVersion".data

def debugMarkerValueString : MarkerValueString → List Char
  | .ImplementationName => "ImplementationName".data
  | .OsName => "OsName".data
  | .PlatformMachine => "PlatformMachine".data
  | .PlatformPythonImplementation => "PlatformPythonImplementation".data
  | .PlatformRelease => "PlatformRelease".data
  | .PlatformSystem => "PlatformSystem".data
  | .PlatformVersion => "PlatformVersion".data
  | .SysPlatform => "SysPlatform".data

def debugMarkerValue : MarkerValue → List Char
  | .MarkerEnvVersion key => "MarkerEnvVersion(".data ++ debugMarkerValueVersion key ++ [')']
  | .MarkerEnvString key => "MarkerEnvString(".data ++ debugMarkerValueString key ++ [')']
  | .Extra => "Extra".data
  | .QuotedString s => "QuotedString(".data ++ dquote :: s.data ++ [dquote, ')']

def debugMarkerOperator : MarkerOperator → List Char
  | .Equal => "Equal".data
  | .NotEqual => "NotEqual".data
  | .GreaterThan => "GreaterThan".data
  | .GreaterEqual => "GreaterEqual".data
  | .LessThan => "LessThan".data
  | .LessEqual => "LessEqual".data
  | .TildeEqual => "TildeEqual".data
  | .In => "In".data
  | .NotIn => "NotIn".data

/-- Rust's derived `Debug` for `MarkerExpression`. -/
def debugExpr (m : MarkerExpression) : List Char :=
  "MarkerExpression \x7b l_value: ".data ++ debugMarkerValue m.l_value
    ++ ", operator: ".data ++ debugMarkerOperator m.operator
    ++ ", r_value: ".data ++ debugMarkerValue m.r_value ++ " \x7d".data

def joinComma : List (List Char) → List Char
  | [] => []
  | [x] => x
  | x :: xs => x ++ ", ".data ++ joinComma xs

/-- Rust's `Debug` for `Vec<MarkerExpression>`, the tie-breaking sort key
for DNF conjunctions. -/
def debugConj (c : List MarkerExpression) : List Char :=
  '[' :: joinComma (c.map debugExpr) ++ [']']

/-! ## `normalized_marker_expression.rs` -/

/-- Port of `NormalizedExtraEqualityOperator`: `==` or `!=`. -/
inductive NormalizedExtraEqualityOperator
  | Equal
  | NotEqual
deriving DecidableEq, Repr

/-- Port of `NormalizedExtraEqualityOperator::from_marker`.  The reporter of
the Rust code is a side channel only; it never influences the returned
value and is omitted from the embedding. -/
def NormalizedExtraEqualityOperator.from_marker (operator : MarkerOperator) :
    Option NormalizedExtraEqualityOperator :=
  match operator with
  | .Equal => some .Equal
  | .NotEqual => some .NotEqual
  | _ => none

/-- Port of `NormalizedMarkerEqualityOperator`. -/
inductive NormalizedMarkerEqualityOperator
  | Equal
  | NotEqual
  | GreaterThan
  | GreaterEqual
  | LessThan
  | LessEqual
  | In
  | NotIn
deriving DecidableEq, Repr

/-- Port of `NormalizedMarkerEqualityOperator::from_marker` (reporter
omitted; the lexicographic-comparison warnings do not change the result,
and `~=` yields `None`). -/
def NormalizedMarkerEqualityOperator.from_marker (operator : MarkerOperator) :
    Option NormalizedMarkerEqualityOperator :=
  match operator with
  | .Equal => some .Equal
  | .NotEqual => some .NotEqual
  | .GreaterThan => some .GreaterThan
  | .GreaterEqual => some .GreaterEqual
  | .LessThan => some .LessThan
  | .LessEqual => some .LessEqual
  | .TildeEqual => none
  | .In => some .In
  | .NotIn => some .NotIn

/-- Port of `NormalizedMarkerFieldValue`: marker key on the left or on the
right of a string comparison. -/
inductive NormalizedMarkerFieldValue
  | MarkerLeftValueRight (left : MarkerValueString) (right : String)
  | ValueLeftMarkerRight (left : String) (right : MarkerValueString)
deriving DecidableEq, Repr

def NormalizedMarkerFieldValue.get_marker : NormalizedMarkerFieldValue → MarkerValueString
  | .MarkerLeftValueRight left _ => left
  | .ValueLeftMarkerRight _ right => right

def NormalizedMarkerFieldValue.get_value : NormalizedMarkerFieldValue → String
  | .MarkerLeftValueRight _ right => right
  | .ValueLeftMarkerRight left _ => left

/-- Port of `NormalizedMarkerExpression`: the three canonical shapes. -/
inductive NormalizedMarkerExpression
  | MarkerEnvVersion (field : MarkerValueVersion) (version_specifiers : List VersionSpecifier)
  | MarkerEnvString (marker_value : NormalizedMarkerFieldValue)
      (operator : NormalizedMarkerEqualityOperator)
  | Extra (operator : NormalizedExtraEqualityOperator) (value : String)
deriving DecidableEq, Repr

/-- Port of `to_pep440_operator`. -/
def to_pep440_operator (op : MarkerOperator) : Option Operator :=
  match op with
  | .Equal => some .Equal
  | .NotEqual => some .NotEqual
  | .GreaterThan => some .GreaterThan
  | .GreaterEqual => some .GreaterThanEqual
  | .LessThan => some .LessThan
  | .LessEqual => some .LessThanEqual
  | .TildeEqual => some .TildeEqual
  | .In => none
  | .NotIn => none

/-- Port of `invert_and_normalize_version_operator`: the operator inversion
for atoms of the shape `<quoted version> <op> <version key>`.  For the
flippable and symmetric operators a single specifier is built (the Rust
`VersionSpecifier::new(op, v, false).unwrap()` cannot fail there); `~=`
splits into `<= v` and `> major(v)`; `in`/`not in` are invalid. -/
def invert_and_normalize_version_operator (operator : MarkerOperator) (l_version : Version) :
    Option (List VersionSpecifier) :=
  match operator with
  | .Equal => some [⟨.Equal, l_version⟩]
  | .NotEqual => some [⟨.NotEqual, l_version⟩]
  | .GreaterThan => some [⟨.LessThanEqual, l_version⟩]
  | .GreaterEqual => some [⟨.LessThan, l_version⟩]
  | .LessThan => some [⟨.GreaterThanEqual, l_version⟩]
  | .LessEqual => some [⟨.LessThanEqual, l_version⟩]
  | .TildeEqual =>
      let lower_bound : VersionSpecifier := ⟨.LessThanEqual, l_version⟩
      let major_version := Version.from_release [l_version.release.headD 0]
      let upper_bound : VersionSpecifier := ⟨.GreaterThan, major_version⟩
      some [lower_bound, upper_bound]
  | .In => none
  | .NotIn => none

/-- Port of `normalize_marker_expression` (reporter omitted: warnings never
change which value is returned). -/
def normalize_marker_expression (marker : MarkerExpression) :
    Option NormalizedMarkerExpression :=
  match marker.l_value with
  | .MarkerEnvVersion l_key =>
      match marker.r_value with
      | .QuotedString r_string =>
          match Version.from_str_star r_string with
          | some (r_version, r_star) =>
              match to_pep440_operator marker.operator with
              | some operator =>
                  match VersionSpecifier.new operator r_version r_star with
                  | some specifier =>
                      some (.MarkerEnvVersion l_key [specifier])
                  | none => none
              | none => none
          | none => none
      | _ => none
  | .MarkerEnvString l_key =>
      match marker.r_value with
      | .QuotedString r_string =>
          match NormalizedMarkerEqualityOperator.from_marker marker.operator with
          | some operator =>
              some (.MarkerEnvString (.MarkerLeftValueRight l_key r_string) operator)
          | none => none
      | _ => none
  | .Extra =>
      match marker.r_value with
      | .QuotedString r_value_string =>
          match NormalizedExtraEqualityOperator.from_marker marker.operator with
          | some operator => some (.Extra operator r_value_string)
          | none => none
      | _ => none
  | .QuotedString l_string =>
      match marker.r_value with
      | .MarkerEnvVersion r_key =>
          match Version.from_str l_string with
          | some l_version =>
              if l_version.epoch ≠ 0 then none
              else if l_version.localSeg ≠ [] then none
              else
                match invert_and_normalize_version_operator marker.operator l_version with
                | some version_specifiers =>
                    some (.MarkerEnvVersion r_key version_specifiers)
                | none => none
          | none => none
      | .MarkerEnvString r_key =>
          some (.MarkerEnvString (.ValueLeftMarkerRight l_string r_key) .Equal)
      | .Extra =>
          match NormalizedExtraEqualityOperator.from_marker marker.operator with
          | some operator => some (.Extra operator l_string)
          | none => none
      | .QuotedString _ => none

/-! ## `marker_intersection.rs` -/

/-- Port of `is_disjoint_marker_expression` (reporter omitted). -/
def is_disjoint_marker_expression (left right : MarkerExpression) : Bool :=
  match normalize_marker_expression left, normalize_marker_expression right with
  | some normalized_left, some normalized_right =>
      match normalized_left, normalized_right with
      | .MarkerEnvVersion left_field left_version_specifiers,
        .MarkerEnvVersion right_field right_version_specifiers =>
          left_field == right_field
            && is_disjoint_version_specifiers left_version_specifiers right_version_specifiers
      | .MarkerEnvString left_marker_value left_operator,
        .MarkerEnvString right_marker_value right_operator =>
          if left_marker_value.get_marker != right_marker_value.get_marker then
            false
          else if left_operator == .Equal && right_operator == .Equal
              && left_marker_value.get_value != right_marker_value.get_value then
            true
          else
            let disjoint_operators :=
              (left_operator == .NotEqual && right_operator == .Equal)
                || (left_operator == .Equal && right_operator == .NotEqual)
            left_marker_value.get_marker == right_marker_value.get_marker
              && left_marker_value.get_value == right_marker_value.get_value
              && disjoint_operators
      | .Extra left_operator left_value, .Extra right_operator right_value =>
          let disjoint_operators :=
            (left_operator == .NotEqual && right_operator == .Equal)
              || (left_operator == .Equal && right_operator == .NotEqual)
          left_value == right_value && disjoint_operators
      | _, _ => false
  | _, _ =>
      -- if either marker is soft-invalid we cannot prove disjointness
      false

/-- The boolean form of "atom `a` sorts no later than atom `b`" under the
`Display`-string sort key used by `sort_by_key` in the DNF engine. -/
def exprLe (a b : MarkerExpression) : Bool :=
  listCmp (displayExpr a) (displayExpr b) != .gt

/-- The stable `sort_by_key(|e| e.to_string())` over atoms. -/
def sortExprs (l : List MarkerExpression) : List MarkerExpression :=
  l.insertionSort (fun a b => exprLe a b = true)

/-- The `(length, Debug)` sort key comparison for conjunctions. -/
def conjLe (c d : List MarkerExpression) : Bool :=
  (compare c.length d.length).then (listCmp (debugConj c) (debugConj d)) != .gt

/-- The stable `sort_by_key(|c| (c.len(), format!("{:?}", c)))` over
conjunctions. -/
def sortConjs (l : List (List MarkerExpression)) : List (List MarkerExpression) :=
  l.insertionSort (fun c d => conjLe c d = true)

/-- The `if !vec.contains(&x) { vec.push(x) }` idiom used throughout the
DNF engine for deduplicated pushes. -/
def pushUnique {α : Type} [BEq α] (acc : List α) (x : α) : List α :=
  if acc.contains x then acc else acc ++ [x]

/-- One step of the `And` fold of `marker_dnf_as_vec`: combine a pair of
conjunctions, deduplicating atoms, sorting, dropping the clause if it
contains a contradictory pair, and appending it to `next` unless already
present. -/
def addClause (left_or right_or : List MarkerExpression)
    (next : List (List MarkerExpression)) : List (List MarkerExpression) :=
  let and_accumulator := (left_or ++ right_or).foldl pushUnique []
  let and_accumulator := sortExprs and_accumulator
  let is_false_clause := and_accumulator.any (fun left_marker =>
    and_accumulator.any (fun right_marker =>
      is_disjoint_marker_expression left_marker right_marker))
  if is_false_clause then next
  else pushUnique next and_accumulator

/-- The Cartesian-product step of the `And` case: every conjunction of
`current` is combined with every conjunction of `entry_dnf`. -/
def and_combine (current entry_dnf : List (List MarkerExpression)) :
    List (List MarkerExpression) :=
  current.foldl (fun next left_or =>
    entry_dnf.foldl (fun next right_or => addClause left_or right_or next) next) []

mutual

/-- Port of `marker_dnf_as_vec`: the disjunctive normal form of a marker
tree as a list of conjunctions (reporter omitted). -/
def marker_dnf_as_vec : MarkerTree → List (List MarkerExpression)
  | .Expression expr => [[expr]]
  | .And and => sortConjs (dnf_and_fold and [])
  | .Or or => sortConjs (dnf_or_fold or [])

/-- The fold over the children of an `And` node: the accumulator starts
empty, the first child's DNF replaces an empty accumulator, later children
are multiplied in by `and_combine`. -/
def dnf_and_fold : List MarkerTree → List (List MarkerExpression) →
    List (List MarkerExpression)
  | [], current => current
  | entry :: rest, current =>
      let entry_dnf := marker_dnf_as_vec entry
      dnf_and_fold rest (if current.isEmpty then entry_dnf else and_combine current entry_dnf)

/-- The fold over the children of an `Or` node: concatenate the child DNFs,
skipping conjunctions that are already present. -/
def dnf_or_fold : List MarkerTree → List (List MarkerExpression) →
    List (List MarkerExpression)
  | [], flattened => flattened
  | entry :: rest, flattened =>
      dnf_or_fold rest ((marker_dnf_as_vec entry).foldl pushUnique flattened)

end

/-- Port of `is_disjoint_marker_tree`: two marker trees are disjoint iff the
DNF of their conjunction is empty. -/
def is_disjoint_marker_tree (left right : MarkerTree) : Bool :=
  (marker_dnf_as_vec (MarkerTree.And [left, right])).isEmpty

/-! ## PEP 440 specifier satisfaction (the external ground truth for the
translation table) -/

def Version.stripLocal (v : Version) : Version := { v with localSeg := [] }

/-- PEP 440: a version is a pre-release if it has a dev or pre segment. -/
def Version.isPrerelease (v : Version) : Bool := v.dev.isSome || v.pre.isSome

/-- Equality of the base versions (epoch and zero-padded release). -/
def baseEq (x v : Version) : Bool :=
  x.epoch == v.epoch && releaseCmp x.release v.release == .eq

/-- Does the release `xs`, zero-padded as needed, start with the prefix
`p`? -/
def releaseStartsWith : List Nat → List Nat → Bool
  | _, [] => true
  | [], p :: ps => p == 0 && releaseStartsWith [] ps
  | x :: xs, p :: ps => x == p && releaseStartsWith xs ps

/-- PEP 440 prefix matching (the `.*` operators): same epoch and the
candidate's release starts with the given prefix. -/
def releasePrefixMatch (x : Version) (epoch : Nat) (p : List Nat) : Bool :=
  x.epoch == epoch && releaseStartsWith x.release p

/-- PEP 440 `==` (without star): the candidate's local segment is ignored
when the specifier has none; releases compare zero-padded; all other
segments must agree. -/
def versionEqualTo (x v : Version) : Bool :=
  let xs := if v.localSeg.isEmpty then x.stripLocal else x
  xs.epoch == v.epoch && releaseCmp xs.release v.release == .eq
    && xs.pre == v.pre && xs.post == v.post && xs.dev == v.dev
    && xs.localSeg == v.localSeg

/-- Modelled from the spec: the external `VersionSpecifier::contains` of
`pep440_rs`, which follows PEP 440 / `pypa/packaging`.  The rules beyond
plain order comparison: `<` must not match a pre-release of the specified
version, `>` must not match a post-release or local version of it, `<=`,
`>=` and `~=` ignore the candidate's local segment, the star operators do
release-prefix matching, `~=` is `>=` plus a prefix match on the release
minus its last number, and `===` is arbitrary (string, i.e. here
structural) equality. -/
def pep440_satisfies (specifier : VersionSpecifier) (x : Version) : Bool :=
  match specifier.operator with
  | .Equal => versionEqualTo x specifier.version
  | .NotEqual => !versionEqualTo x specifier.version
  | .EqualStar =>
      releasePrefixMatch x specifier.version.epoch specifier.version.release
  | .NotEqualStar =>
      !releasePrefixMatch x specifier.version.epoch specifier.version.release
  | .ExactEqual => x == specifier.version
  | .LessThan =>
      Version.cmp x specifier.version == .lt
        && !(x.isPrerelease && !specifier.version.isPrerelease
              && baseEq x specifier.version)
  | .GreaterThan =>
      Version.cmp x specifier.version == .gt
        && !(x.post.isSome && specifier.version.post == none
              && baseEq x specifier.version)
        && !(!x.localSeg.isEmpty && baseEq x specifier.version)
  | .LessThanEqual => Version.cmp x.stripLocal specifier.version != .gt
  | .GreaterThanEqual => Version.cmp x.stripLocal specifier.version != .lt
  | .TildeEqual =>
      Version.cmp x.stripLocal specifier.version != .lt
        && releasePrefixMatch x specifier.version.epoch
            specifier.version.release.dropLast

/-- Membership of a version in a `VersionRange`, the spec's "a version lies
in the range" (section 3: bounds with inclusivity flags, absent bounds are
infinite). -/
def VersionRange.containsVersion (r : VersionRange) (x : Version) : Bool :=
  (match r.min with
   | none => true
   | some lo =>
       match Version.cmp lo x with
       | .lt => true
       | .eq => r.min_inclusive
       | .gt => false)
  && (match r.max with
      | none => true
      | some hi =>
          match Version.cmp x hi with
          | .lt => true
          | .eq => r.max_inclusive
          | .gt => false)

/-- Membership in the union of the one or two ranges a specifier translates
to. -/
def specifierRangesContain (s : VersionSpecifier) (x : Version) : Bool :=
  let ranges := version_specifier_to_ranges s
  ranges.1.containsVersion x
    || (match ranges.2 with
        | some range2 => range2.containsVersion x
        | none => false)

/-! ## Marker environments (the external PEP 508 evaluation) -/

/-- Modelled from the spec: a marker environment assigns a version to each
version-typed key, a string to each string-typed key, and carries the set
of active extras. -/
structure MarkerEnvironment where
  version_env : MarkerValueVersion → Version
  string_env : MarkerValueString → String
  extras : List String

/-- Is `needle` a contiguous sublist of `hay`? (the `in` operator on
strings). -/
def listInfix (needle : List Char) : List Char → Bool
  | [] => needle.isEmpty
  | c :: rest => listStartsWith (c :: rest) needle || listInfix needle rest

/-- Modelled from the spec: PEP 508 evaluation of `l <op> r` on strings
(`<`-family compares lexicographically, `in`/`not in` is substring
containment, `~=` is invalid on strings and evaluates to false). -/
def evalStringOperator (op : MarkerOperator) (l r : String) : Bool :=
  match op with
  | .Equal => l == r
  | .NotEqual => l != r
  | .GreaterThan => listCmp l.data r.data == .gt
  | .GreaterEqual => listCmp l.data r.data != .lt
  | .LessThan => listCmp l.data r.data == .lt
  | .LessEqual => listCmp l.data r.data != .gt
  | .TildeEqual => false
  | .In => listInfix l.data r.data
  | .NotIn => !listInfix l.data r.data

/-- Modelled from the spec: PEP 508 evaluation of `l <op> r` on versions,
via the PEP 440 total order (`~=` is the compatible-release test,
`in`/`not in` are invalid on versions and evaluate to false). -/
def evalVersionOperator (op : MarkerOperator) (l r : Version) : Bool :=
  match op with
  | .Equal => verEq l r
  | .NotEqual => !verEq l r
  | .GreaterThan => Version.cmp l r == .gt
  | .GreaterEqual => Version.cmp l r != .lt
  | .LessThan => Version.cmp l r == .lt
  | .LessEqual => Version.cmp l r != .gt
  | .TildeEqual =>
      Version.cmp l r != .lt && releasePrefixMatch l r.epoch r.release.dropLast
  | .In => false
  | .NotIn => false

/-- Modelled from the spec: the truth value of one marker atom in an
environment, following PEP 508 (version keys compare as versions, string
keys as strings, `extra` tests membership in the active extras; atoms whose
literals do not parse evaluate to false). -/
def evalMarkerExpression (env : MarkerEnvironment) (m : MarkerExpression) : Bool :=
  match m.l_value, m.r_value with
  | .MarkerEnvVersion l_key, .QuotedString r_string =>
      match Version.from_str_star r_string with
      | some (r_version, r_star) =>
          if r_star then
            match m.operator with
            | .Equal => releasePrefixMatch (env.version_env l_key) r_version.epoch r_version.release
            | .NotEqual => !releasePrefixMatch (env.version_env l_key) r_version.epoch r_version.release
            | _ => false
          else evalVersionOperator m.operator (env.version_env l_key) r_version
      | none => false
  | .QuotedString l_string, .MarkerEnvVersion r_key =>
      match Version.from_str l_string with
      | some l_version => evalVersionOperator m.operator l_version (env.version_env r_key)
      | none => false
  | .MarkerEnvString l_key, .QuotedString r_string =>
      evalStringOperator m.operator (env.string_env l_key) r_string
  | .QuotedString l_string, .MarkerEnvString r_key =>
      evalStringOperator m.operator l_string (env.string_env r_key)
  | .Extra, .QuotedString s =>
      match m.operator with
      | .Equal => env.extras.contains s
      | .NotEqual => !env.extras.contains s
      | _ => false
  | .QuotedString s, .Extra =>
      match m.operator with
      | .Equal => env.extras.contains s
      | .NotEqual => !env.extras.contains s
      | _ => false
  | .QuotedString a, .QuotedString b => evalStringOperator m.operator a b
  | _, _ => false

mutual

/-- Modelled from the spec: the truth value of a marker tree in an
environment (`And`/`Or` are conjunction/disjunction over the children). -/
def evalMarkerTree (env : MarkerEnvironment) : MarkerTree → Bool
  | .Expression e => evalMarkerExpression env e
  | .And l => evalMarkerAll env l
  | .Or l => evalMarkerAny env l

def evalMarkerAll (env : MarkerEnvironment) : List MarkerTree → Bool
  | [] => true
  | t :: ts => evalMarkerTree env t && evalMarkerAll env ts

def evalMarkerAny (env : MarkerEnvironment) : List MarkerTree → Bool
  | [] => false
  | t :: ts => evalMarkerTree env t || evalMarkerAny env ts

end

/-! ## `helper.rs` -/

/-- The separator class of the PEP 503 normalizer regex `[-_.]+`. -/
def isNormSep (c : Char) : Bool := c == '-' || c == '_' || c == '.'

/-- Runs of `[-_.]` fold to a single `-`, everything else is lowercased. -/
def normalizeChars : List Char → List Char
  | [] => []
  | [c] => if isNormSep c then ['-'] else [toLowerCh c]
  | c₁ :: c₂ :: rest =>
      if isNormSep c₁ && isNormSep c₂ then normalizeChars (c₂ :: rest)
      else (if isNormSep c₁ then '-' else toLowerCh c₁) :: normalizeChars (c₂ :: rest)

/-- Port of `normalize`: PEP 503 name normalization, `[-_.]+` replaced by
`-` and the result lowercased. -/
def normalize (name : String) : String := ⟨normalizeChars name.data⟩

/-- Port of `filename_to_version`.  Errors are reported as strings (the
Rust code raises a `PyValueError` for malformed wheel names); the two
warn-and-return-`None` paths both yield `ok none`.  Rust slices the
un-normalized basename at the byte length of the normalized prefix; on the
ASCII names handled here bytes and characters coincide. -/
def filename_to_version (package_name filename : String) :
    Except String (Option String) :=
  let chars := filename.data
  if listEndsWith chars ".whl".data then
    match splitOnCh '-' chars with
    | [_name, version, _python_tag, _abi_tag, _platform_tag] =>
        .ok (some ⟨version⟩)
    | [_name, version, _build, _python_tag, _abi_tag, _platform_tag] =>
        .ok (some ⟨version⟩)
    | _ => .error ("Invalid wheel filename: " ++ filename)
  else
    match ([".tar.gz", ".zip", ".tar.bz2", ".tgz"].filterMap
        (fun suffix => listStripSuffix chars suffix.data)).head? with
    | some basename =>
        let basename_normalized := normalizeChars basename
        let filePre := normalizeChars package_name.data ++ ['-']
        if listStartsWith basename_normalized filePre then
          .ok (some ⟨basename.drop filePre.length⟩)
        else
          -- name mismatch: warn and ignore the file
          .ok none
    | none =>
        if [".exe", ".msi", ".egg", ".rpm", ".dmg"].any
            (fun suffix => listEndsWith chars suffix.data) then
          .ok none
        else
          -- unexpected extension: warn and ignore the file
          .ok none

/-! ## `core_metadata.rs` -/

/-- The characters matched by the second group of the fix-up regex
`(\d)([<>=~^!])`. -/
def isVersionOpCh (c : Char) : Bool :=
  c == '<' || c == '>' || c == '=' || c == '~' || c == '^' || c == '!'

/-- The effect of `REQUIREMENT_FIXUP_REGEX.replace(s, "$1,$2")`: insert a
comma between the first digit that is directly followed by a version
operator character and that operator (`Regex::replace` rewrites only the
first match). -/
def fixupChars : List Char → List Char
  | [] => []
  | [c] => [c]
  | c₁ :: c₂ :: rest =>
      if isDigitCh c₁ && isVersionOpCh c₂ then c₁ :: ',' :: c₂ :: rest
      else c₁ :: fixupChars (c₂ :: rest)

def requirement_fixup (s : String) : String := ⟨fixupChars s.data⟩

/-- Port of `parse_requirement_with_fixup`, parameterized over the external
PEP 508 parser `Requirement::from_str` (the `debug_str` argument only
selects a warning text and is omitted). -/
def parse_requirement_with_fixup {E R : Type} (from_str : String → Except E R)
    (requirement_str : String) : Except E R :=
  match from_str requirement_str with
  | .ok requirement => .ok requirement
  | .error err =>
      match from_str (requirement_fixup requirement_str) with
      | .ok requirement => .ok requirement
      | .error _ =>
          -- didn't work with the fixup either: raise the error of the original string
          .error err

/-! ## Order lemmas for the version model -/

theorem lt_then (o : Ordering) : Ordering.lt.then o = .lt := rfl

theorem gt_then (o : Ordering) : Ordering.gt.then o = .gt := rfl

theorem eq_then (o : Ordering) : Ordering.eq.then o = o := rfl

theorem then_eq_right (o : Ordering) : o.then .eq = o := by cases o <;> rfl

theorem then_swap (o p : Ordering) : (o.then p).swap = o.swap.then p.swap := by
  cases o <;> cases p <;> rfl

theorem then_eq_eq_iff (o p : Ordering) : o.then p = .eq ↔ o = .eq ∧ p = .eq := by
  cases o <;> cases p <;> simp [Ordering.then]

theorem natCompare_self (a : Nat) : compare a a = .eq := Nat.compare_eq_eq.mpr rfl

theorem natCompare_swap (a b : Nat) : compare a b = (compare b a).swap := by
  rcases Nat.lt_trichotomy a b with h | h | h
  · rw [Nat.compare_eq_lt.mpr h, Nat.compare_eq_gt.mpr h]; rfl
  · subst h; rw [Nat.compare_eq_eq.mpr rfl]; rfl
  · rw [Nat.compare_eq_gt.mpr h, Nat.compare_eq_lt.mpr h]; rfl

theorem releaseCmpNil_ne_gt (bs : List Nat) : releaseCmpNil bs ≠ .gt := by
  induction bs with
  | nil => simp [releaseCmpNil]
  | cons b bs ih =>
    simp only [releaseCmpNil]
    rcases Nat.eq_zero_or_pos b with h | h
    · subst h; rw [Nat.compare_eq_eq.mpr rfl, eq_then]; exact ih
    · rw [Nat.compare_eq_lt.mpr h, lt_then]; simp

theorem releaseCmp_nil_swap (as : List Nat) :
    releaseCmp as [] = (releaseCmpNil as).swap := by
  induction as with
  | nil => rfl
  | cons a as ih =>
    simp only [releaseCmp, releaseCmpNil, then_swap, ← natCompare_swap, ih]

theorem releaseCmp_swap (a b : List Nat) : releaseCmp a b = (releaseCmp b a).swap := by
  induction a generalizing b with
  | nil =>
    cases b with
    | nil => rfl
    | cons b bs =>
      show releaseCmpNil (b :: bs) = (releaseCmp (b :: bs) []).swap
      rw [releaseCmp_nil_swap, Ordering.swap_swap]
  | cons a as ih =>
    cases b with
    | nil =>
      show releaseCmp (a :: as) [] = (releaseCmpNil (a :: as)).swap
      exact releaseCmp_nil_swap _
    | cons b bs =>
      simp only [releaseCmp, then_swap, ← natCompare_swap, ih bs]

theorem releaseCmp_refl (l : List Nat) : releaseCmp l l = .eq := by
  induction l with
  | nil => rfl
  | cons a as ih => simp only [releaseCmp, Nat.compare_eq_eq.mpr rfl, eq_then, ih]

theorem releaseCmp_nil_right_ne_lt (as : List Nat) : releaseCmp as [] ≠ .lt := by
  rw [releaseCmp_nil_swap]
  have := releaseCmpNil_ne_gt as
  cases h : releaseCmpNil as <;> simp_all [Ordering.swap]

theorem lt_incrementLast : ∀ (p : List Nat), p ≠ [] →
    releaseCmp p (incrementLast p) = .lt
  | [], h => absurd rfl h
  | [a], _ => by
    simp only [incrementLast, releaseCmp, Nat.compare_eq_lt.mpr (Nat.lt_succ_self a), lt_then]
  | a :: b :: rest, _ => by
    show (compare a a).then (releaseCmp (b :: rest) (incrementLast (b :: rest))) = .lt
    rw [Nat.compare_eq_eq.mpr rfl, eq_then]
    exact lt_incrementLast (b :: rest) (by simp)

theorem append_lt_incrementLast : ∀ (p : List Nat), p ≠ [] → ∀ (last : Nat),
    releaseCmp (p ++ [last]) (incrementLast p) = .lt
  | [], h, _ => absurd rfl h
  | [a], _, last => by
    show (compare a (a + 1)).then (releaseCmp [last] []) = .lt
    rw [Nat.compare_eq_lt.mpr (Nat.lt_succ_self a), lt_then]
  | a :: b :: rest, _, last => by
    show (compare a a).then (releaseCmp ((b :: rest) ++ [last]) (incrementLast (b :: rest))) = .lt
    rw [Nat.compare_eq_eq.mpr rfl, eq_then]
    exact append_lt_incrementLast (b :: rest) (by simp) last

theorem dropSuffix_le : ∀ (p : List Nat) (last : Nat) (xr : List Nat),
    releaseCmp (p ++ [last]) xr ≠ .gt → releaseCmp p xr ≠ .gt
  | [], _, xr, _ => by
    show releaseCmpNil xr ≠ .gt
    exact releaseCmpNil_ne_gt xr
  | a :: p2, last, [], h => by
    revert h
    show (compare a 0).then (releaseCmp (p2 ++ [last]) []) ≠ .gt →
      (compare a 0).then (releaseCmp p2 []) ≠ .gt
    intro h
    rcases Nat.eq_zero_or_pos a with ha | ha
    · subst ha
      rw [Nat.compare_eq_eq.mpr rfl, eq_then] at h ⊢
      exact dropSuffix_le p2 last [] h
    · rw [Nat.compare_eq_gt.mpr ha, gt_then] at h
      exact absurd rfl h
  | a :: p2, last, x :: xs, h => by
    revert h
    show (compare a x).then (releaseCmp (p2 ++ [last]) xs) ≠ .gt →
      (compare a x).then (releaseCmp p2 xs) ≠ .gt
    intro h
    rcases hc : compare a x with hc1 | hc1 | hc1
    · rw [lt_then]; simp
    · rw [hc, eq_then] at h
      rw [eq_then]
      exact dropSuffix_le p2 last xs h
    · rw [hc, gt_then] at h; exact absurd rfl h

theorem starts_iff_between : ∀ (p : List Nat), p ≠ [] → ∀ (xr : List Nat),
    releaseStartsWith xr p = true ↔
      (releaseCmp p xr ≠ .gt ∧ releaseCmp xr (incrementLast p) = .lt)
  | [], h, _ => absurd rfl h
  | [a], _, [] => by
    show (a == 0 && releaseStartsWith [] []) = true ↔
      ((compare a 0).then (releaseCmp [] []) ≠ .gt ∧ releaseCmpNil [a + 1] = .lt)
    rcases Nat.eq_zero_or_pos a with ha | ha
    · subst ha
      simp [releaseStartsWith, releaseCmp, releaseCmpNil,
        Nat.compare_eq_eq.mpr rfl, Nat.compare_eq_lt.mpr (Nat.succ_pos 0), eq_then, lt_then]
    · simp [releaseStartsWith, Nat.compare_eq_gt.mpr ha, gt_then, Nat.pos_iff_ne_zero.mp ha]
  | [a], _, x :: xs => by
    show (x == a && releaseStartsWith xs []) = true ↔
      ((compare a x).then (releaseCmp [] xs) ≠ .gt ∧
        (compare x (a + 1)).then (releaseCmp xs []) = .lt)
    rcases Nat.lt_trichotomy x a with hc | hc | hc
    · simp [Nat.compare_eq_gt.mpr hc, gt_then, Nat.ne_of_lt hc, releaseStartsWith]
    · subst hc
      have h1 : releaseCmp [] xs ≠ .gt := releaseCmpNil_ne_gt xs
      have h2 : releaseCmp xs [] ≠ .lt := releaseCmp_nil_right_ne_lt xs
      simp [Nat.compare_eq_eq.mpr rfl, Nat.compare_eq_lt.mpr (Nat.lt_succ_self x),
        eq_then, lt_then, releaseStartsWith, h1]
    · have hxa : (x == a) = false := by simp [Nat.ne_of_gt hc]
      rcases Nat.lt_or_ge x (a + 1) with hx1 | hx1
      · omega
      rcases Nat.eq_or_lt_of_le hx1 with hx2 | hx2
      · have h2 : releaseCmp xs [] ≠ .lt := releaseCmp_nil_right_ne_lt xs
        rw [← hx2]
        simp only [hxa, Bool.false_and, Nat.compare_eq_eq.mpr rfl, eq_then]
        simp [h2, Nat.compare_eq_lt.mpr hc, lt_then]
      · simp [hxa, Nat.compare_eq_gt.mpr hx2, gt_then, Nat.compare_eq_lt.mpr hc, lt_then]
  | a :: b :: rest, _, [] => by
    show (a == 0 && releaseStartsWith [] (b :: rest)) = true ↔
      ((compare a 0).then (releaseCmp (b :: rest) []) ≠ .gt ∧
        (compare 0 a).then (releaseCmpNil (incrementLast (b :: rest))) = .lt)
    rcases Nat.eq_zero_or_pos a with ha | ha
    · subst ha
      have ih := starts_iff_between (b :: rest) (by simp) []
      simp only [Nat.compare_eq_eq.mpr rfl, eq_then, Bool.true_and, beq_self_eq_true]
      exact ih
    · simp [Nat.pos_iff_ne_zero.mp ha, Nat.compare_eq_gt.mpr ha, gt_then]
  | a :: b :: rest, _, x :: xs => by
    show (x == a && releaseStartsWith xs (b :: rest)) = true ↔
      ((compare a x).then (releaseCmp (b :: rest) xs) ≠ .gt ∧
        (compare x a).then (releaseCmp xs (incrementLast (b :: rest))) = .lt)
    rcases Nat.lt_trichotomy x a with hc | hc | hc
    · simp [Nat.compare_eq_gt.mpr hc, gt_then, Nat.ne_of_lt hc]
    · subst hc
      have ih := starts_iff_between (b :: rest) (by simp) xs
      simp only [Nat.compare_eq_eq.mpr rfl, eq_then, beq_self_eq_true, Bool.true_and]
      exact ih
    · simp [Nat.ne_of_gt hc, Nat.compare_eq_gt.mpr hc, gt_then, Nat.compare_eq_lt.mpr hc, lt_then]

/-! ## Plain versions -/

/-- A version with no pre/post/dev suffix and no local segment, the shape
the repository's modelled parser produces. -/
def plainV (v : Version) : Prop :=
  v.pre = none ∧ v.post = none ∧ v.dev = none ∧ v.localSeg = []

/-- The epoch-then-release part of the PEP 440 order. -/
def erCmp (x y : Version) : Ordering :=
  (compare x.epoch y.epoch).then (releaseCmp x.release y.release)

theorem stripLocal_plain {x : Version} (hx : x.localSeg = []) : x.stripLocal = x := by
  cases x; simp_all [Version.stripLocal]

theorem cmp_plain {x y : Version} (hx : plainV x) (hy : plainV y) :
    Version.cmp x y = erCmp x y := by
  obtain ⟨hx1, hx2, hx3, hx4⟩ := hx
  obtain ⟨hy1, hy2, hy3, hy4⟩ := hy
  simp [Version.cmp, erCmp, preKey, postKey, devKey, cmp3, cmp2, localCmp,
    hx1, hx2, hx3, hx4, hy1, hy2, hy3, hy4, natCompare_self, eq_then, then_eq_right]

theorem erCmp_swap (x y : Version) : erCmp x y = (erCmp y x).swap := by
  simp only [erCmp, then_swap, ← natCompare_swap, ← releaseCmp_swap]

theorem swap_eq_lt {o : Ordering} : o.swap = .lt ↔ o = .gt := by
  cases o <;> simp [Ordering.swap]

theorem swap_eq_gt {o : Ordering} : o.swap = .gt ↔ o = .lt := by
  cases o <;> simp [Ordering.swap]

theorem swap_eq_eq {o : Ordering} : o.swap = .eq ↔ o = .eq := by
  cases o <;> simp [Ordering.swap]

theorem natCompare_lt_ne {a b : Nat} (h : compare a b = .lt) : a ≠ b :=
  Nat.ne_of_lt (Nat.compare_eq_lt.mp h)

theorem natCompare_gt_ne {a b : Nat} (h : compare a b = .gt) : a ≠ b :=
  Nat.ne_of_gt (Nat.compare_eq_gt.mp h)

theorem plainV_update_release {v : Version} (hs : plainV v) (r : List Nat) :
    plainV { v with release := r } := hs

theorem erCmp_eq_eq_iff (x v : Version) :
    erCmp x v = .eq ↔ (x.epoch = v.epoch ∧ releaseCmp x.release v.release = .eq) := by
  simp [erCmp, then_eq_eq_iff, Nat.compare_eq_eq]

theorem ordering_beq_eq_true {a b : Ordering} : ((a == b) = true) ↔ a = b := by
  cases a <;> cases b <;> decide

theorem versionEqualTo_plain {v x : Version} (hs : plainV v) (hx : plainV x) :
    versionEqualTo x v = (erCmp x v == .eq) := by
  obtain ⟨hs1, hs2, hs3, hs4⟩ := hs
  obtain ⟨hx1, hx2, hx3, hx4⟩ := hx
  simp only [versionEqualTo, hs4, List.isEmpty_nil, if_pos, stripLocal_plain hx4,
    hs1, hs2, hs3, hx1, hx2, hx3, hx4]
  rw [Bool.eq_iff_iff]
  simp [ordering_beq_eq_true, erCmp_eq_eq_iff]

theorem c2_case_Equal {v x : Version} (hs : plainV v) (hx : plainV x) :
    specifierRangesContain ⟨.Equal, v⟩ x = pep440_satisfies ⟨.Equal, v⟩ x := by
  have hvx : Version.cmp v x = (erCmp x v).swap := by rw [cmp_plain hs hx, erCmp_swap]
  have hxv : Version.cmp x v = erCmp x v := cmp_plain hx hs
  simp only [specifierRangesContain, version_specifier_to_ranges,
    VersionRange.containsVersion, pep440_satisfies, Bool.or_false, hvx, hxv,
    versionEqualTo_plain hs hx]
  rcases h : erCmp x v <;> simp [Ordering.swap] <;> decide

theorem c2_case_NotEqual {v x : Version} (hs : plainV v) (hx : plainV x) :
    specifierRangesContain ⟨.NotEqual, v⟩ x = pep440_satisfies ⟨.NotEqual, v⟩ x := by
  have hvx : Version.cmp v x = (erCmp x v).swap := by rw [cmp_plain hs hx, erCmp_swap]
  have hxv : Version.cmp x v = erCmp x v := cmp_plain hx hs
  simp only [specifierRangesContain, version_specifier_to_ranges,
    VersionRange.containsVersion, pep440_satisfies, hvx, hxv,
    versionEqualTo_plain hs hx]
  rcases h : erCmp x v <;> simp [Ordering.swap] <;> decide

theorem c2_case_LessThan {v x : Version} (hs : plainV v) (hx : plainV x) :
    specifierRangesContain ⟨.LessThan, v⟩ x = pep440_satisfies ⟨.LessThan, v⟩ x := by
  obtain ⟨hx1, hx2, hx3, hx4⟩ := hx
  have hxv : Version.cmp x v = erCmp x v := cmp_plain ⟨hx1, hx2, hx3, hx4⟩ hs
  simp only [specifierRangesContain, version_specifier_to_ranges,
    VersionRange.containsVersion, pep440_satisfies, Bool.or_false, hxv,
    Version.isPrerelease, hx1, hx3]
  rcases h : erCmp x v <;> simp <;> decide

theorem c2_case_LessThanEqual {v x : Version} (hs : plainV v) (hx : plainV x) :
    specifierRangesContain ⟨.LessThanEqual, v⟩ x = pep440_satisfies ⟨.LessThanEqual, v⟩ x := by
  have hx4 := hx.2.2.2
  have hxv : Version.cmp x v = erCmp x v := cmp_plain hx hs
  simp only [specifierRangesContain, version_specifier_to_ranges,
    VersionRange.containsVersion, pep440_satisfies, Bool.or_false,
    stripLocal_plain hx4, hxv]
  rcases h : erCmp x v <;> simp <;> decide

theorem c2_case_GreaterThan {v x : Version} (hs : plainV v) (hx : plainV x) :
    specifierRangesContain ⟨.GreaterThan, v⟩ x = pep440_satisfies ⟨.GreaterThan, v⟩ x := by
  obtain ⟨hx1, hx2, hx3, hx4⟩ := hx
  have hvx : Version.cmp v x = (erCmp x v).swap := by
    rw [cmp_plain hs ⟨hx1, hx2, hx3, hx4⟩, erCmp_swap]
  have hxv : Version.cmp x v = erCmp x v := cmp_plain ⟨hx1, hx2, hx3, hx4⟩ hs
  simp only [specifierRangesContain, version_specifier_to_ranges,
    VersionRange.containsVersion, pep440_satisfies, Bool.or_false, hvx, hxv,
    hx2, hx4]
  rcases h : erCmp x v <;> simp [Ordering.swap] <;> decide

theorem c2_case_GreaterThanEqual {v x : Version} (hs : plainV v) (hx : plainV x) :
    specifierRangesContain ⟨.GreaterThanEqual, v⟩ x =
      pep440_satisfies ⟨.GreaterThanEqual, v⟩ x := by
  have hx4 := hx.2.2.2
  have hvx : Version.cmp v x = (erCmp x v).swap := by rw [cmp_plain hs hx, erCmp_swap]
  have hxv : Version.cmp x v = erCmp x v := cmp_plain hx hs
  simp only [specifierRangesContain, version_specifier_to_ranges,
    VersionRange.containsVersion, pep440_satisfies, Bool.or_false,
    stripLocal_plain hx4, hvx, hxv]
  rcases h : erCmp x v <;> simp [Ordering.swap] <;> decide

theorem natCompare_beq_eq (a b : Nat) : (a == b) = (compare a b == .eq) := by
  rcases Nat.lt_trichotomy a b with h | h | h
  · rw [Nat.compare_eq_lt.mpr h, beq_eq_false_iff_ne.mpr (Nat.ne_of_lt h)]; rfl
  · subst h; rw [natCompare_self, beq_self_eq_true]; rfl
  · rw [Nat.compare_eq_gt.mpr h, beq_eq_false_iff_ne.mpr (Nat.ne_of_gt h)]; rfl

theorem c2_case_EqualStar {v x : Version} (hs : plainV v) (hx : plainV x)
    (hrel : v.release ≠ []) :
    specifierRangesContain ⟨.EqualStar, v⟩ x = pep440_satisfies ⟨.EqualStar, v⟩ x := by
  have hs2 : plainV { v with release := incrementLast v.release } := hs
  have hvx : Version.cmp v x = (erCmp x v).swap := by rw [cmp_plain hs hx, erCmp_swap]
  have hxv2 : Version.cmp x { v with release := incrementLast v.release } =
      (compare x.epoch v.epoch).then (releaseCmp x.release (incrementLast v.release)) :=
    cmp_plain hx hs2
  have hiff := starts_iff_between v.release hrel x.release
  rw [releaseCmp_swap v.release x.release] at hiff
  simp only [specifierRangesContain, version_specifier_to_ranges,
    VersionRange.containsVersion, pep440_satisfies, releasePrefixMatch,
    Bool.or_false, hvx, hxv2, erCmp, natCompare_beq_eq]
  rw [Bool.eq_iff_iff]
  rcases hE : compare x.epoch v.epoch <;>
    rcases hR : releaseCmp x.release v.release <;>
      rcases hS : releaseCmp x.release (incrementLast v.release) <;>
        simp_all [erCmp, Ordering.swap, lt_then, eq_then, gt_then] <;> decide

theorem c2_case_NotEqualStar {v x : Version} (hs : plainV v) (hx : plainV x)
    (hrel : v.release ≠ []) :
    specifierRangesContain ⟨.NotEqualStar, v⟩ x = pep440_satisfies ⟨.NotEqualStar, v⟩ x := by
  have hs2 : plainV { v with release := incrementLast v.release } := hs
  have hxv : Version.cmp x v = erCmp x v := cmp_plain hx hs
  have hvx2 : Version.cmp { v with release := incrementLast v.release } x =
      ((compare x.epoch v.epoch).then (releaseCmp x.release (incrementLast v.release))).swap := by
    rw [cmp_plain hs2 hx, erCmp_swap]; rfl
  have hiff := starts_iff_between v.release hrel x.release
  rw [releaseCmp_swap v.release x.release] at hiff
  simp only [specifierRangesContain, version_specifier_to_ranges,
    VersionRange.containsVersion, pep440_satisfies, releasePrefixMatch,
    Bool.true_and, hxv, hvx2, erCmp, natCompare_beq_eq]
  rw [Bool.eq_iff_iff]
  rcases hE : compare x.epoch v.epoch <;>
    rcases hR : releaseCmp x.release v.release <;>
      rcases hS : releaseCmp x.release (incrementLast v.release) <;>
        simp_all [erCmp, Ordering.swap, lt_then, eq_then, gt_then] <;> decide

theorem c2_case_TildeEqual {v x : Version} (hs : plainV v) (hx : plainV x)
    (hrel2 : 2 ≤ v.release.length) :
    specifierRangesContain ⟨.TildeEqual, v⟩ x = pep440_satisfies ⟨.TildeEqual, v⟩ x := by
  have hx4 := hx.2.2.2
  have hrel : v.release ≠ [] := by
    intro hc; rw [hc] at hrel2; simp at hrel2
  have hp : v.release.dropLast ≠ [] := by
    intro hc
    have := congrArg List.length hc
    simp [List.length_dropLast] at this
    omega
  have hlast : v.release.dropLast ++ [v.release.getLast hrel] = v.release :=
    List.dropLast_append_getLast hrel
  have hs2 : plainV { v with release := incrementLast v.release.dropLast } := hs
  have hvx : Version.cmp v x = (erCmp x v).swap := by rw [cmp_plain hs hx, erCmp_swap]
  have hxv : Version.cmp x v = erCmp x v := cmp_plain hx hs
  have hxv2 : Version.cmp x { v with release := incrementLast v.release.dropLast } =
      (compare x.epoch v.epoch).then (releaseCmp x.release (incrementLast v.release.dropLast)) :=
    cmp_plain hx hs2
  have hiff := starts_iff_between v.release.dropLast hp x.release
  have hdrop : releaseCmp x.release v.release ≠ .lt →
      releaseCmp v.release.dropLast x.release ≠ .gt := by
    intro h
    refine dropSuffix_le _ (v.release.getLast hrel) _ ?_
    rw [hlast, releaseCmp_swap v.release x.release]
    rcases hc : releaseCmp x.release v.release <;> simp_all [Ordering.swap]
  simp only [specifierRangesContain, version_specifier_to_ranges,
    VersionRange.containsVersion, pep440_satisfies, releasePrefixMatch,
    Bool.or_false, stripLocal_plain hx4, hvx, hxv, hxv2, erCmp, natCompare_beq_eq]
  rw [Bool.eq_iff_iff]
  rcases hE : compare x.epoch v.epoch <;>
    rcases hR : releaseCmp x.release v.release <;>
      rcases hS : releaseCmp x.release (incrementLast v.release.dropLast) <;>
        simp_all [erCmp, Ordering.swap, lt_then, eq_then, gt_then] <;>
          first
          | decide
          | (intros; simp_all)
          | (intro h1; exact absurd h1 (by decide))
          | (intro h1 h2; exact absurd h2 (by decide))

/-! ## Concrete inputs used by the claims -/

/-- An environment whose version-typed keys all hold the given version; the
string keys and extras are irrelevant for the claims below. -/
def pythonEnv (v : Version) : MarkerEnvironment :=
  ⟨fun _ => v, fun _ => "", []⟩

/-- The atom `"3.8" <= python_version`. -/
def literalLeAtom : MarkerExpression :=
  ⟨.QuotedString "3.8", .LessEqual, .MarkerEnvVersion .PythonVersion⟩

/-- The atom `python_version > "3.9"`. -/
def pvGtAtom : MarkerExpression :=
  ⟨.MarkerEnvVersion .PythonVersion, .GreaterThan, .QuotedString "3.9"⟩

/-- The specifier set `>= 3.7, != 3.8.0, < 3.11`. -/
def c4_left1 : List VersionSpecifier :=
  [⟨.GreaterThanEqual, Version.from_release [3, 7]⟩,
   ⟨.NotEqual, Version.from_release [3, 8, 0]⟩,
   ⟨.LessThan, Version.from_release [3, 11]⟩]

/-- The specifier set `> 3.10, < 3.12`. -/
def c4_right1 : List VersionSpecifier :=
  [⟨.GreaterThan, Version.from_release [3, 10]⟩,
   ⟨.LessThan, Version.from_release [3, 12]⟩]

/-- The specifier set `== 3.10.*, != 3.10.2`. -/
def c4_left2 : List VersionSpecifier :=
  [⟨.EqualStar, Version.from_release [3, 10]⟩,
   ⟨.NotEqual, Version.from_release [3, 10, 2]⟩]

/-- The specifier set `>= 3.11, < 3.12`. -/
def c4_right2 : List VersionSpecifier :=
  [⟨.GreaterThanEqual, Version.from_release [3, 11]⟩,
   ⟨.LessThan, Version.from_release [3, 12]⟩]

/-- The specifier set `> 1`. -/
def c4_left3 : List VersionSpecifier :=
  [⟨.GreaterThan, Version.from_release [1]⟩]

/-- The specifier set `< 1, > 2`. -/
def c4_right3 : List VersionSpecifier :=
  [⟨.LessThan, Version.from_release [1]⟩,
   ⟨.GreaterThan, Version.from_release [2]⟩]

/-- The atom `platform_machine == "<s>"`. -/
def pmAtom (s : String) : MarkerExpression :=
  ⟨.MarkerEnvString .PlatformMachine, .Equal, .QuotedString s⟩

/-- The atom `python_version >= "3"`. -/
def pvGe3Atom : MarkerExpression :=
  ⟨.MarkerEnvVersion .PythonVersion, .GreaterEqual, .QuotedString "3"⟩

/-- The SQLAlchemy 1.4.47 marker
`python_version >= "3" and (platform_machine == "aarch64" or ... or
platform_machine == "WIN32")`. -/
def sqlalchemyMarker : MarkerTree :=
  .And [.Expression pvGe3Atom,
    .Or [.Expression (pmAtom "aarch64"), .Expression (pmAtom "ppc64le"),
         .Expression (pmAtom "x86_64"), .Expression (pmAtom "amd64"),
         .Expression (pmAtom "AMD64"), .Expression (pmAtom "win32"),
         .Expression (pmAtom "WIN32")]]

/-- The atom `"1" ~= python_version`, whose normalization is the
version constraint `<= 1, > 1` with an empty range union. -/
def tildeSelfAtom : MarkerExpression :=
  ⟨.QuotedString "1", .TildeEqual, .MarkerEnvVersion .PythonVersion⟩

/-! ## Claim C1 -/

/-- C1 (code bug): `is_disjoint_marker_tree` claims the markers
`"3.8" <= python_version` and `python_version > "3.9"` are disjoint, yet
the environment with `python_version = 3.10` satisfies both — a false
positive, which the spec forbids.  The cause is the inversion table mapping
`literal <= variable` to `variable <= literal` (the asymmetric `<=` line
flagged as an open question in the spec). -/
theorem C1_code_bug :
    is_disjoint_marker_tree (.Expression literalLeAtom) (.Expression pvGtAtom) = true
    ∧ evalMarkerTree (pythonEnv (Version.from_release [3, 10])) (.Expression literalLeAtom) = true
    ∧ evalMarkerTree (pythonEnv (Version.from_release [3, 10])) (.Expression pvGtAtom) = true :=
  ⟨by decide, by decide, by decide⟩

/-! ## Claim C4 -/

/-- C4: the three concrete specifier-set disjointness results:
`">= 3.7, != 3.8.0, < 3.11"` vs `"> 3.10, < 3.12"` overlap (false);
`"== 3.10.*, != 3.10.2"` vs `">= 3.11, < 3.12"` are disjoint (true);
`"> 1"` vs `"< 1, > 2"` are disjoint (true) because the right side merges
to an empty union of ranges. -/
theorem C4_concrete_specifier_sets :
    is_disjoint_version_specifiers c4_left1 c4_right1 = false
    ∧ is_disjoint_version_specifiers c4_left2 c4_right2 = true
    ∧ is_disjoint_version_specifiers c4_left3 c4_right3 = true
    ∧ version_specifiers_to_ranges c4_right3 = [] :=
  ⟨by decide, by decide, by decide, by decide⟩

/-! ## Claim C5 -/

/-- C5: the DNF of the SQLAlchemy marker is exactly seven conjunctions of
two atoms each, ordered ascending by the `platform_machine` string literal
in byte order (capitals before lowercase): AMD64, WIN32, aarch64, amd64,
ppc64le, win32, x86_64. -/
theorem C5_sqlalchemy_dnf :
    marker_dnf_as_vec sqlalchemyMarker =
      [[pmAtom "AMD64", pvGe3Atom], [pmAtom "WIN32", pvGe3Atom],
       [pmAtom "aarch64", pvGe3Atom], [pmAtom "amd64", pvGe3Atom],
       [pmAtom "ppc64le", pvGe3Atom], [pmAtom "win32", pvGe3Atom],
       [pmAtom "x86_64", pvGe3Atom]] := by
  decide

/-! ## Claim C6 -/

/-- C6: for the shape (quoted literal on the left, string key on the
right), `normalize_marker_expression` always emits a `StringEquality` with
side key-right and operator `==`, whatever the operator of the atom was. -/
theorem C6_quoted_left_string_key (l_string : String) (op : MarkerOperator)
    (r_key : MarkerValueString) :
    normalize_marker_expression ⟨.QuotedString l_string, op, .MarkerEnvString r_key⟩ =
      some (.MarkerEnvString (.ValueLeftMarkerRight l_string r_key) .Equal) :=
  rfl

/-! ## Claim C7 -/

/-- C7: if either side of a pair of marker expressions fails to normalize,
`is_disjoint_marker_expression` returns false: a soft-invalid atom is never
claimed disjoint with anything. -/
theorem C7_soft_invalid_conservative (left right : MarkerExpression)
    (h : normalize_marker_expression left = none
      ∨ normalize_marker_expression right = none) :
    is_disjoint_marker_expression left right = false := by
  unfold is_disjoint_marker_expression
  cases hL : normalize_marker_expression left with
  | none => rfl
  | some nl =>
    cases hR : normalize_marker_expression right with
    | none => rfl
    | some nr => simp_all

/-- Witness for C7 at the soft-invalid atom `"a" == "b"` (a string-string
comparison, which normalizes to `none`). -/
theorem C7_soft_invalid_conservative_witness :
    normalize_marker_expression ⟨.QuotedString "a", .Equal, .QuotedString "b"⟩ = none
    ∧ is_disjoint_marker_expression ⟨.QuotedString "a", .Equal, .QuotedString "b"⟩
        pvGtAtom = false :=
  ⟨rfl, C7_soft_invalid_conservative _ _ (Or.inl rfl)⟩

/-! ## Claim C8 -/

/-- C8: `parse_requirement_with_fixup` returns the direct parse when it
succeeds; on failure it retries on the comma-fixed string; and when the
retry also fails it returns the error from parsing the original string. -/
theorem C8_requirement_fixup {E R : Type} (from_str : String → Except E R)
    (s : String) :
    (∀ r, from_str s = .ok r → parse_requirement_with_fixup from_str s = .ok r)
    ∧ (∀ e r, from_str s = .error e → from_str (requirement_fixup s) = .ok r →
        parse_requirement_with_fixup from_str s = .ok r)
    ∧ (∀ e e₂, from_str s = .error e → from_str (requirement_fixup s) = .error e₂ →
        parse_requirement_with_fixup from_str s = .error e) := by
  refine ⟨fun r h => ?_, fun e r h h₂ => ?_, fun e e₂ h h₂ => ?_⟩
  · simp [parse_requirement_with_fixup, h]
  · simp [parse_requirement_with_fixup, h, h₂]
  · simp [parse_requirement_with_fixup, h, h₂]

/-- A toy parser accepting exactly the comma-fixed form of the
django-elasticsearch-dsl requirement from the Rust doc comment. -/
def c8ToyParse (str : String) : Except Nat Nat :=
  if str = "elasticsearch-dsl (>=7.2.0,<8.0.0)" then .ok 1 else .error 0

/-- Witness for C8: the toy parser rejects the raw requirement, accepts the
comma-fixed one, and `parse_requirement_with_fixup` recovers. -/
theorem C8_requirement_fixup_witness :
    c8ToyParse "elasticsearch-dsl (>=7.2.0<8.0.0)" = .error 0
    ∧ c8ToyParse (requirement_fixup "elasticsearch-dsl (>=7.2.0<8.0.0)") = .ok 1
    ∧ parse_requirement_with_fixup c8ToyParse "elasticsearch-dsl (>=7.2.0<8.0.0)" = .ok 1 :=
  ⟨rfl, rfl,
    (C8_requirement_fixup c8ToyParse "elasticsearch-dsl (>=7.2.0<8.0.0)").2.1 0 1 rfl rfl⟩

/-! ## Claim C9 -/

/-- C9: the three concrete `filename_to_version` results: the ambiguous
sdist `tokenizer-rt-1.0-final1.tar.gz` yields `1.0-final1`, the wheel
`foo-1.0-py3-none-any.whl` yields `1.0`, and the `.dmg` yields no
version. -/
theorem C9_filename_to_version :
    filename_to_version "tokenizer-rt" "tokenizer-rt-1.0-final1.tar.gz" = .ok (some "1.0-final1")
    ∧ filename_to_version "foo" "foo-1.0-py3-none-any.whl" = .ok (some "1.0")
    ∧ filename_to_version "x" "x-1.0.dmg" = .ok none :=
  ⟨rfl, rfl, rfl⟩

/-! ## Claim C2, counterexample -/

/-- C2 (counterexample): for the specifier `< 3.8` and the candidate
`3.8a1`, PEP 440 forbids the match (a pre-release of the specified version
must not satisfy an exclusive ordered comparison), yet `3.8a1` lies in the
translated range `[-inf, 3.8)`: the union of ranges is a strict superset of
the satisfied set. -/
theorem C2_counterexample :
    pep440_satisfies ⟨.LessThan, Version.from_release [3, 8]⟩
        ⟨0, [3, 8], some (.alpha, 1), none, none, []⟩ = false
    ∧ specifierRangesContain ⟨.LessThan, Version.from_release [3, 8]⟩
        ⟨0, [3, 8], some (.alpha, 1), none, none, []⟩ = true :=
  ⟨by decide, by decide⟩

/-! ## Claim C3: lemmas about the DNF engine -/

theorem mem_pushUnique {α : Type} [BEq α] [LawfulBEq α] {acc : List α} {x y : α} :
    y ∈ pushUnique acc x ↔ (y ∈ acc ∨ y = x) := by
  unfold pushUnique
  split
  · next h =>
    have hx : x ∈ acc := List.elem_iff.mp h
    constructor
    · exact Or.inl
    · rintro (hy | rfl)
      · exact hy
      · exact hx
  · simp

theorem nodup_pushUnique {α : Type} [BEq α] [LawfulBEq α] {acc : List α} (h : acc.Nodup)
    (x : α) : (pushUnique acc x).Nodup := by
  unfold pushUnique
  split
  · exact h
  · next hc =>
    have hx : x ∉ acc := fun hmem => hc (List.elem_iff.mpr hmem)
    simp [List.nodup_append, h, hx]

theorem mem_foldl_pushUnique {α : Type} [BEq α] [LawfulBEq α] (l : List α) (init : List α)
    (y : α) : y ∈ l.foldl pushUnique init ↔ (y ∈ init ∨ y ∈ l) := by
  induction l generalizing init with
  | nil => simp
  | cons a l ih =>
    simp only [List.foldl_cons, ih, mem_pushUnique, List.mem_cons]
    tauto

theorem nodup_foldl_pushUnique {α : Type} [BEq α] [LawfulBEq α] (l : List α) {init : List α}
    (h : init.Nodup) : (l.foldl pushUnique init).Nodup := by
  induction l generalizing init with
  | nil => exact h
  | cons a l ih => exact ih (nodup_pushUnique h a)

/-- The invariant of one DNF conjunction that the claim states: no
duplicate atoms, and no two (position-distinct) atoms that
`is_disjoint_marker_expression` reports contradictory, in either order. -/
def GoodConj (c : List MarkerExpression) : Prop :=
  c.Nodup ∧ c.Pairwise (fun a b =>
    is_disjoint_marker_expression a b = false ∧ is_disjoint_marker_expression b a = false)

/-- The invariant of an entire DNF: no duplicate conjunctions, every
conjunction canonical in the sense of `GoodConj`. -/
def GoodDnf (D : List (List MarkerExpression)) : Prop :=
  D.Nodup ∧ ∀ c ∈ D, GoodConj c

theorem goodDnf_nil : GoodDnf [] := ⟨List.nodup_nil, by simp⟩

theorem goodDnf_sortConjs {D : List (List MarkerExpression)} (h : GoodDnf D) :
    GoodDnf (sortConjs D) := by
  have hperm : (sortConjs D).Perm D := List.perm_insertionSort _ D
  exact ⟨hperm.nodup_iff.mpr h.1, fun c hc => h.2 c (hperm.mem_iff.mp hc)⟩

theorem goodDnf_addClause {next : List (List MarkerExpression)} (h : GoodDnf next)
    (left_or right_or : List MarkerExpression) : GoodDnf (addClause left_or right_or next) := by
  show GoodDnf
    (if ((sortExprs ((left_or ++ right_or).foldl pushUnique [])).any fun left_marker =>
        (sortExprs ((left_or ++ right_or).foldl pushUnique [])).any fun right_marker =>
          is_disjoint_marker_expression left_marker right_marker) = true
     then next
     else pushUnique next (sortExprs ((left_or ++ right_or).foldl pushUnique [])))
  split
  · exact h
  · next hf =>
    refine ⟨nodup_pushUnique h.1 _, ?_⟩
    intro c hc
    rcases mem_pushUnique.mp hc with hc | rfl
    · exact h.2 c hc
    · have hperm : (sortExprs ((left_or ++ right_or).foldl pushUnique [])).Perm
          ((left_or ++ right_or).foldl pushUnique []) := List.perm_insertionSort _ _
      have hnd : (sortExprs ((left_or ++ right_or).foldl pushUnique [])).Nodup :=
        hperm.nodup_iff.mpr (nodup_foldl_pushUnique _ List.nodup_nil)
      have hfalse : ((sortExprs ((left_or ++ right_or).foldl pushUnique [])).any fun a =>
          (sortExprs ((left_or ++ right_or).foldl pushUnique [])).any fun b =>
            is_disjoint_marker_expression a b) = false := eq_false_of_ne_true hf
      have hall : ∀ a ∈ sortExprs ((left_or ++ right_or).foldl pushUnique []),
          ∀ b ∈ sortExprs ((left_or ++ right_or).foldl pushUnique []),
          is_disjoint_marker_expression a b = false := by
        intro a ha b hb
        have h1 := List.any_eq_false.mp hfalse a ha
        have h2 := List.any_eq_false.mp (eq_false_of_ne_true h1) b hb
        simpa using h2
      exact ⟨hnd, List.pairwise_of_forall_mem_list
        (fun a ha b hb => ⟨hall a ha b hb, hall b hb a ha⟩)⟩

theorem goodDnf_inner_fold (left_or : List MarkerExpression)
    (ent : List (List MarkerExpression)) {next : List (List MarkerExpression)}
    (h : GoodDnf next) :
    GoodDnf (ent.foldl (fun n right_or => addClause left_or right_or n) next) := by
  induction ent generalizing next with
  | nil => exact h
  | cons r ent ih => exact ih (goodDnf_addClause h left_or r)

theorem goodDnf_and_combine (current entry_dnf : List (List MarkerExpression)) :
    GoodDnf (and_combine current entry_dnf) := by
  unfold and_combine
  suffices h : ∀ (next : List (List MarkerExpression)), GoodDnf next →
      GoodDnf (current.foldl (fun next left_or =>
        entry_dnf.foldl (fun n right_or => addClause left_or right_or n) next) next) from
    h [] goodDnf_nil
  induction current with
  | nil => intro next h; exact h
  | cons c current ih =>
    intro next h
    simp only [List.foldl_cons]
    exact ih _ (goodDnf_inner_fold c entry_dnf h)

theorem goodDnf_or_step (D : List (List MarkerExpression))
    {fl : List (List MarkerExpression)} (hD : ∀ c ∈ D, GoodConj c) (h : GoodDnf fl) :
    GoodDnf (D.foldl pushUnique fl) := by
  refine ⟨nodup_foldl_pushUnique _ h.1, ?_⟩
  intro c hc
  rcases (mem_foldl_pushUnique _ _ _).mp hc with hc | hc
  · exact h.2 c hc
  · exact hD c hc

theorem goodDnf_expression (e : MarkerExpression) : GoodDnf [[e]] := by
  refine ⟨by simp, ?_⟩
  intro c hc
  simp only [List.mem_singleton] at hc
  subst hc
  exact ⟨by simp, by simp⟩

theorem goodDnf_all (n : Nat) :
    (∀ t : MarkerTree, sizeOf t ≤ n → GoodDnf (marker_dnf_as_vec t))
    ∧ (∀ l : List MarkerTree, ∀ cur, sizeOf l ≤ n → GoodDnf cur →
        GoodDnf (dnf_and_fold l cur))
    ∧ (∀ l : List MarkerTree, ∀ fl, sizeOf l ≤ n → GoodDnf fl →
        GoodDnf (dnf_or_fold l fl)) := by
  induction n using Nat.strong_induction_on with
  | _ n ih =>
    refine ⟨?_, ?_, ?_⟩
    · intro t ht
      match t with
      | .Expression e => exact goodDnf_expression e
      | .And l =>
        have hlt : sizeOf l < n := by
          have : sizeOf (MarkerTree.And l) = 1 + sizeOf l := by simp
          omega
        exact goodDnf_sortConjs ((ih (sizeOf l) hlt).2.1 l [] le_rfl goodDnf_nil)
      | .Or l =>
        have hlt : sizeOf l < n := by
          have : sizeOf (MarkerTree.Or l) = 1 + sizeOf l := by simp
          omega
        exact goodDnf_sortConjs ((ih (sizeOf l) hlt).2.2 l [] le_rfl goodDnf_nil)
    · intro l cur hl hcur
      match l with
      | [] => exact hcur
      | entry :: rest =>
        have hsz : sizeOf (entry :: rest) = 1 + sizeOf entry + sizeOf rest := by simp
        have hent : sizeOf entry < n := by omega
        have hrest : sizeOf rest < n := by omega
        have hgood : GoodDnf (marker_dnf_as_vec entry) := (ih _ hent).1 entry le_rfl
        show GoodDnf (dnf_and_fold rest
          (if cur.isEmpty then marker_dnf_as_vec entry else and_combine cur (marker_dnf_as_vec entry)))
        refine (ih _ hrest).2.1 rest _ le_rfl ?_
        by_cases hc : cur.isEmpty
        · simpa [hc] using hgood
        · simpa [hc] using goodDnf_and_combine cur (marker_dnf_as_vec entry)
    · intro l fl hl hfl
      match l with
      | [] => exact hfl
      | entry :: rest =>
        have hsz : sizeOf (entry :: rest) = 1 + sizeOf entry + sizeOf rest := by simp
        have hent : sizeOf entry < n := by omega
        have hrest : sizeOf rest < n := by omega
        have hgood : GoodDnf (marker_dnf_as_vec entry) := (ih _ hent).1 entry le_rfl
        show GoodDnf (dnf_or_fold rest ((marker_dnf_as_vec entry).foldl pushUnique fl))
        exact (ih _ hrest).2.2 rest _ le_rfl (goodDnf_or_step _ hgood.2 hfl)

/-! ## Claim C3 -/

/-- C3: for every marker tree, the DNF produced by `marker_dnf_as_vec`
contains no two equal conjunctions, and within each conjunction no two
equal atoms and no pair of (position-distinct) atoms that
`is_disjoint_marker_expression` reports disjoint, in either order. -/
theorem C3_dnf_canonical (t : MarkerTree) :
    (marker_dnf_as_vec t).Nodup
    ∧ ∀ c ∈ marker_dnf_as_vec t, c.Nodup ∧ c.Pairwise (fun a b =>
        is_disjoint_marker_expression a b = false
        ∧ is_disjoint_marker_expression b a = false) := by
  have h := (goodDnf_all (sizeOf t)).1 t le_rfl
  exact ⟨h.1, h.2⟩

/-! ## Claim C2, amended -/

/-- C2 (amended): for every specifier whose operator is not `===` and whose
version has no pre/post/dev/local segment (with the parser invariants on
the release: non-empty, and at least two numbers for `~=`), and every
candidate version without pre/post/dev/local segments, membership in the
union of the one or two translated ranges coincides exactly with PEP 440
satisfaction.  The exclusions are forced: pre-release candidates break
`<`-style bounds (see the counterexample), local segments break the
`==`/`<=`-style comparisons that strip them, and `===` is string equality,
which distinguishes `1.0` from `1.0.0` while the point range does not. -/
theorem C2_amended (s : VersionSpecifier) (x : Version)
    (hs : plainV s.version) (hx : plainV x)
    (hrel : s.version.release ≠ [])
    (htilde : s.operator = .TildeEqual → 2 ≤ s.version.release.length)
    (hop : s.operator ≠ .ExactEqual) :
    specifierRangesContain s x = pep440_satisfies s x := by
  obtain ⟨op, v⟩ := s
  cases op with
  | Equal => exact c2_case_Equal hs hx
  | EqualStar => exact c2_case_EqualStar hs hx hrel
  | ExactEqual => exact absurd rfl hop
  | NotEqual => exact c2_case_NotEqual hs hx
  | NotEqualStar => exact c2_case_NotEqualStar hs hx hrel
  | TildeEqual => exact c2_case_TildeEqual hs hx (htilde rfl)
  | LessThan => exact c2_case_LessThan hs hx
  | LessThanEqual => exact c2_case_LessThanEqual hs hx
  | GreaterThan => exact c2_case_GreaterThan hs hx
  | GreaterThanEqual => exact c2_case_GreaterThanEqual hs hx

/-- Witness for the amended C2 at the specifier `>= 3.8` and candidate
`3.9`. -/
theorem C2_amended_witness :
    plainV (Version.from_release [3, 8]) ∧ plainV (Version.from_release [3, 9])
    ∧ (Version.from_release [3, 8]).release ≠ []
    ∧ specifierRangesContain ⟨.GreaterThanEqual, Version.from_release [3, 8]⟩
        (Version.from_release [3, 9])
      = pep440_satisfies ⟨.GreaterThanEqual, Version.from_release [3, 8]⟩
        (Version.from_release [3, 9]) :=
  ⟨⟨rfl, rfl, rfl, rfl⟩, ⟨rfl, rfl, rfl, rfl⟩, by decide,
   C2_amended ⟨.GreaterThanEqual, Version.from_release [3, 8]⟩
     (Version.from_release [3, 9]) ⟨rfl, rfl, rfl, rfl⟩ ⟨rfl, rfl, rfl, rfl⟩ (by decide)
     (fun h => absurd h (by decide)) (by decide)⟩

/-! ## Claim C10: the self-overlap invariant of merged ranges -/

theorem localCmp_refl (l : List Nat) : localCmp l l = .eq := by
  induction l with
  | nil => rfl
  | cons a as ih => simp only [localCmp, natCompare_self, eq_then, ih]

theorem localCmp_swap (a b : List Nat) : localCmp a b = (localCmp b a).swap := by
  induction a generalizing b with
  | nil => cases b <;> rfl
  | cons x xs ih =>
    cases b with
    | nil => rfl
    | cons y ys => simp only [localCmp, then_swap, ← natCompare_swap, ih ys]

theorem localCmp_eq_iff {a b : List Nat} : localCmp a b = .eq ↔ a = b := by
  induction a generalizing b with
  | nil => cases b <;> simp [localCmp]
  | cons x xs ih =>
    cases b with
    | nil => simp [localCmp]
    | cons y ys => simp [localCmp, then_eq_eq_iff, Nat.compare_eq_eq, ih]

theorem cmp3_refl (a : Nat × Nat × Nat) : cmp3 a a = .eq := by
  simp [cmp3, natCompare_self, eq_then]

theorem cmp3_swap (a b : Nat × Nat × Nat) : cmp3 a b = (cmp3 b a).swap := by
  simp only [cmp3, then_swap, ← natCompare_swap]

theorem cmp3_eq_iff {a b : Nat × Nat × Nat} : cmp3 a b = .eq ↔ a = b := by
  obtain ⟨a1, a2, a3⟩ := a
  obtain ⟨b1, b2, b3⟩ := b
  simp [cmp3, then_eq_eq_iff, Nat.compare_eq_eq]

theorem cmp2_refl (a : Nat × Nat) : cmp2 a a = .eq := by
  simp [cmp2, natCompare_self, eq_then]

theorem cmp2_swap (a b : Nat × Nat) : cmp2 a b = (cmp2 b a).swap := by
  simp only [cmp2, then_swap, ← natCompare_swap]

theorem cmp2_eq_iff {a b : Nat × Nat} : cmp2 a b = .eq ↔ a = b := by
  obtain ⟨a1, a2⟩ := a
  obtain ⟨b1, b2⟩ := b
  simp [cmp2, then_eq_eq_iff, Nat.compare_eq_eq]

theorem cmp_refl (x : Version) : Version.cmp x x = .eq := by
  simp [Version.cmp, natCompare_self, releaseCmp_refl, cmp3_refl, cmp2_refl,
    localCmp_refl, eq_then]

theorem cmp_swap (x y : Version) : Version.cmp x y = (Version.cmp y x).swap := by
  simp only [Version.cmp, then_swap, ← natCompare_swap, ← releaseCmp_swap,
    ← cmp3_swap, ← cmp2_swap, ← localCmp_swap]

theorem releaseCmpNil_zeros {b : List Nat} (h : releaseCmpNil b = .eq) :
    ∀ c, releaseCmp b c = releaseCmpNil c := by
  induction b with
  | nil => intro c; rfl
  | cons x xs ih =>
    have hx : x = 0 ∧ releaseCmpNil xs = .eq := by
      revert h
      simp only [releaseCmpNil]
      rcases hc : compare 0 x with h1 | h1 | h1
      · simp [lt_then]
      · rw [eq_then]
        intro h
        exact ⟨(Nat.compare_eq_eq.mp hc).symm, h⟩
      · simp [gt_then]
    obtain ⟨hx0, hxs⟩ := hx
    subst hx0
    intro c
    cases c with
    | nil =>
      show (compare 0 0).then (releaseCmp xs []) = releaseCmpNil []
      rw [natCompare_self, eq_then, releaseCmp_nil_swap, hxs]
      rfl
    | cons y ys =>
      show (compare 0 y).then (releaseCmp xs ys) = (compare 0 y).then (releaseCmpNil ys)
      rw [ih hxs ys]

theorem releaseCmp_congr {a b : List Nat} (h : releaseCmp a b = .eq) :
    ∀ c, releaseCmp a c = releaseCmp b c := by
  induction a generalizing b with
  | nil =>
    intro c
    have hb : releaseCmpNil b = .eq := h
    rw [show releaseCmp [] c = releaseCmpNil c from rfl, releaseCmpNil_zeros hb c]
  | cons x xs ih =>
    intro c
    cases b with
    | nil =>
      have hx : x = 0 ∧ releaseCmp xs [] = .eq := by
        revert h
        show (compare x 0).then (releaseCmp xs []) = .eq → _
        rcases hc : compare x 0 with h1 | h1 | h1
        · simp [lt_then]
        · rw [eq_then]
          intro h
          exact ⟨Nat.compare_eq_eq.mp hc, h⟩
        · simp [gt_then]
      obtain ⟨hx0, hxs⟩ := hx
      subst hx0
      have hxs2 : releaseCmpNil xs = .eq := by
        rw [releaseCmp_nil_swap] at hxs
        exact swap_eq_eq.mp hxs
      cases c with
      | nil =>
        show (compare 0 0).then (releaseCmp xs []) = releaseCmpNil []
        rw [natCompare_self, eq_then, hxs]
        rfl
      | cons y ys =>
        show (compare 0 y).then (releaseCmp xs ys) = (compare 0 y).then (releaseCmpNil ys)
        rw [releaseCmpNil_zeros hxs2 ys]
    | cons y ys =>
      have hxy : x = y ∧ releaseCmp xs ys = .eq := by
        revert h
        show (compare x y).then (releaseCmp xs ys) = .eq → _
        rcases hc : compare x y with h1 | h1 | h1
        · simp [lt_then]
        · rw [eq_then]
          intro h
          exact ⟨Nat.compare_eq_eq.mp hc, h⟩
        · simp [gt_then]
      obtain ⟨hxy0, hxs⟩ := hxy
      subst hxy0
      cases c with
      | nil =>
        show (compare x 0).then (releaseCmp xs []) = (compare x 0).then (releaseCmp ys [])
        rw [ih hxs []]
      | cons z zs =>
        show (compare x z).then (releaseCmp xs zs) = (compare x z).then (releaseCmp ys zs)
        rw [ih hxs zs]

theorem cmp_components_of_eq {x y : Version} (h : Version.cmp x y = .eq) :
    x.epoch = y.epoch ∧ releaseCmp x.release y.release = .eq ∧ preKey x = preKey y
    ∧ postKey x = postKey y ∧ devKey x = devKey y ∧ x.localSeg = y.localSeg := by
  unfold Version.cmp at h
  rw [then_eq_eq_iff] at h
  obtain ⟨h1, h⟩ := h
  rw [then_eq_eq_iff] at h
  obtain ⟨h2, h⟩ := h
  rw [then_eq_eq_iff] at h
  obtain ⟨h3, h⟩ := h
  rw [then_eq_eq_iff] at h
  obtain ⟨h4, h⟩ := h
  rw [then_eq_eq_iff] at h
  obtain ⟨h5, h6⟩ := h
  exact ⟨Nat.compare_eq_eq.mp h1, h2, cmp3_eq_iff.mp h3, cmp2_eq_iff.mp h4,
    cmp2_eq_iff.mp h5, localCmp_eq_iff.mp h6⟩

theorem cmp_congr_left {x y : Version} (h : Version.cmp x y = .eq) (z : Version) :
    Version.cmp x z = Version.cmp y z := by
  obtain ⟨h1, h2, h3, h4, h5, h6⟩ := cmp_components_of_eq h
  unfold Version.cmp
  rw [h1, h3, h4, h5, h6, releaseCmp_congr h2]

theorem cmp_congr_right {x y : Version} (h : Version.cmp x y = .eq) (z : Version) :
    Version.cmp z x = Version.cmp z y := by
  rw [cmp_swap z x, cmp_swap z y, cmp_congr_left h z]

/-- The strictness bit of a lower bound: inclusive bounds bind earlier. -/
def lowBit (incl : Bool) : Nat := if incl then 0 else 1

/-- The strictness bit of an upper bound: inclusive bounds reach further. -/
def upBit (incl : Bool) : Nat := if incl then 1 else 0

/-- The strict order on bound keys (a version together with a strictness
bit) that the overlap tests of `VersionRange.is_disjoint` implement. -/
def keyLt (j k : Version × Nat) : Prop :=
  Version.cmp j.1 k.1 = .lt ∨ (Version.cmp j.1 k.1 = .eq ∧ j.2 < k.2)

theorem keyLt_congr_left {x y : Version} (h : Version.cmp x y = .eq) {i : Nat}
    {k : Version × Nat} : keyLt (x, i) k ↔ keyLt (y, i) k := by
  unfold keyLt
  rw [show Version.cmp (x, i).1 k.1 = Version.cmp (y, i).1 k.1 from cmp_congr_left h k.1]

theorem keyLt_congr_right {x y : Version} (h : Version.cmp x y = .eq)
    {j : Version × Nat} {i : Nat} : keyLt j (x, i) ↔ keyLt j (y, i) := by
  unfold keyLt
  rw [show Version.cmp j.1 (x, i).1 = Version.cmp j.1 (y, i).1 from cmp_congr_right h j.1]

theorem keyLt_lowBit_and {m : Version} {l₁ l₂ : Bool} {k : Version × Nat} :
    keyLt (m, lowBit (l₁ && l₂)) k ↔ (keyLt (m, lowBit l₁) k ∧ keyLt (m, lowBit l₂) k) := by
  unfold keyLt lowBit
  rcases h : Version.cmp m k.1 <;> cases l₁ <;> cases l₂ <;> simp <;> omega

theorem keyLt_upBit_and {j : Version × Nat} {M : Version} {u₁ u₂ : Bool} :
    keyLt j (M, upBit (u₁ && u₂)) ↔ (keyLt j (M, upBit u₁) ∧ keyLt j (M, upBit u₂)) := by
  unfold keyLt upBit
  rcases h : Version.cmp j.1 M <;> cases u₁ <;> cases u₂ <;> simp <;> omega

theorem overlapping1_some_iff {a b : VersionRange} {M m : Version}
    (hM : a.max = some M) (hm : b.min = some m) :
    a.overlapping1 b = true ↔ keyLt (m, lowBit b.min_inclusive) (M, upBit a.max_inclusive) := by
  unfold VersionRange.overlapping1
  rw [hM, hm]
  have hswap : Version.cmp m M = (Version.cmp M m).swap := cmp_swap m M
  unfold keyLt lowBit upBit
  simp only [optVerEq, verEq]
  rcases hc : Version.cmp M m with h1 | h1 | h1 <;>
    rw [hc] at hswap <;>
      cases ha : a.max_inclusive <;> cases hb : b.min_inclusive <;>
        simp [hswap, Ordering.swap] <;> decide

theorem overlapping1_of_max_none {a b : VersionRange} (hM : a.max = none) :
    a.overlapping1 b = true := by
  unfold VersionRange.overlapping1
  rw [hM]
  cases b.min <;> simp

theorem overlapping1_of_min_none {a b : VersionRange} (hm : b.min = none) :
    a.overlapping1 b = true := by
  unfold VersionRange.overlapping1
  rw [hm]
  cases a.max <;> simp

theorem overlapping2_some_iff {a b : VersionRange} {M m : Version}
    (hM : b.max = some M) (hm : a.min = some m) :
    a.overlapping2 b = true ↔ keyLt (m, lowBit a.min_inclusive) (M, upBit b.max_inclusive) := by
  unfold VersionRange.overlapping2
  rw [hM, hm]
  have hswap : Version.cmp m M = (Version.cmp M m).swap := cmp_swap m M
  unfold keyLt lowBit upBit
  simp only [optVerEq, verEq]
  rcases hc : Version.cmp M m with h1 | h1 | h1 <;>
    rw [hc] at hswap <;>
      cases hb : b.max_inclusive <;> cases ha : a.min_inclusive <;>
        simp [hswap, Ordering.swap] <;> decide

theorem overlapping2_of_max_none {a b : VersionRange} (hM : b.max = none) :
    a.overlapping2 b = true := by
  unfold VersionRange.overlapping2
  rw [hM]
  cases a.min <;> simp

theorem overlapping2_of_min_none {a b : VersionRange} (hm : a.min = none) :
    a.overlapping2 b = true := by
  unfold VersionRange.overlapping2
  rw [hm]
  cases b.max <;> simp

/-- A syntactically non-empty range: if both bounds are present, the lower
bound key lies strictly below the upper bound key.  Exactly the ranges that
`is_disjoint` does not report disjoint from themselves. -/
def RangeOk (r : VersionRange) : Prop :=
  ∀ m M, r.min = some m → r.max = some M →
    keyLt (m, lowBit r.min_inclusive) (M, upBit r.max_inclusive)

theorem is_disjoint_false_iff {a b : VersionRange} :
    a.is_disjoint b = false ↔ (a.overlapping1 b = true ∧ a.overlapping2 b = true) := by
  unfold VersionRange.is_disjoint
  cases h1 : a.overlapping1 b <;> cases h2 : a.overlapping2 b <;> simp

theorem selfOk_iff {r : VersionRange} : r.is_disjoint r = false ↔ RangeOk r := by
  rw [is_disjoint_false_iff]
  cases hm : r.min with
  | none =>
    simp only [overlapping1_of_min_none hm, overlapping2_of_min_none hm, true_and]
    constructor
    · intro _ m M h1 _
      rw [hm] at h1
      cases h1
    · intro _
      trivial
  | some m =>
    cases hM : r.max with
    | none =>
      simp only [overlapping1_of_max_none hM, overlapping2_of_max_none hM, true_and]
      constructor
      · intro _ m₂ M₂ _ h2
        rw [hM] at h2
        cases h2
      · intro _
        trivial
    | some M =>
      rw [overlapping1_some_iff hM hm, overlapping2_some_iff hM hm]
      constructor
      · intro h m₂ M₂ h1 h2
        rw [hm] at h1
        rw [hM] at h2
        cases h1
        cases h2
        exact h.1
      · intro h
        exact ⟨h m M hm hM, h m M hm hM⟩

theorem overlap_cond1 {a b : VersionRange} (h : a.is_disjoint b = false) {M m : Version}
    (hM : a.max = some M) (hm : b.min = some m) :
    keyLt (m, lowBit b.min_inclusive) (M, upBit a.max_inclusive) :=
  (overlapping1_some_iff hM hm).mp (is_disjoint_false_iff.mp h).1

theorem overlap_cond2 {a b : VersionRange} (h : a.is_disjoint b = false) {M m : Version}
    (hM : b.max = some M) (hm : a.min = some m) :
    keyLt (m, lowBit a.min_inclusive) (M, upBit b.max_inclusive) :=
  (overlapping2_some_iff hM hm).mp (is_disjoint_false_iff.mp h).2

theorem rangeOk_intersect {a b : VersionRange} (hA : RangeOk a) (hB : RangeOk b)
    (hab : a.is_disjoint b = false) : RangeOk (a.intersect b) := by
  intro m M hm hM
  rcases hcmin : optMinCmp a.min b.min with h₀ | h₀ | h₀
  -- optMinCmp = .lt: the minimum comes from b
  · simp only [VersionRange.intersect, hcmin] at hm hM ⊢
    rcases haM : a.max with _ | aM <;> rcases hbM : b.max with _ | bM <;>
      simp only [haM, hbM] at hm hM ⊢
    · cases hM
    · cases hM
      exact hB m M hm hbM
    · cases hM
      exact overlap_cond1 hab haM hm
    · simp only [optMinCmp] at hm hM ⊢
      rcases hcmax : Version.cmp aM bM with h₁ | h₁ | h₁ <;>
        simp only [hcmax] at hm hM ⊢
      · cases hM
        exact overlap_cond1 hab haM hm
      · cases hM
        rw [keyLt_upBit_and]
        refine ⟨overlap_cond1 hab haM hm, ?_⟩
        rw [keyLt_congr_right hcmax]
        exact hB m bM hm hbM
      · cases hM
        exact hB m M hm hbM
  -- optMinCmp = .eq: the two minima are equivalent, the flags conjoin
  · simp only [VersionRange.intersect, hcmin] at hm hM ⊢
    -- b.min is also `some`, with an equivalent version
    have hbmin : ∃ m₂, b.min = some m₂ ∧ Version.cmp m m₂ = .eq := by
      cases hbm : b.min with
      | none =>
        rw [hm, hbm] at hcmin
        simp [optMinCmp] at hcmin
      | some m₂ =>
        rw [hm, hbm] at hcmin
        simp only [optMinCmp] at hcmin
        exact ⟨m₂, rfl, hcmin⟩
    obtain ⟨m₂, hbm, hmm⟩ := hbmin
    have hmm2 : Version.cmp m₂ m = .eq := by
      rw [cmp_swap] at hmm
      exact swap_eq_eq.mp hmm
    rw [keyLt_lowBit_and]
    rcases haM : a.max with _ | aM <;> rcases hbM : b.max with _ | bM <;>
      simp only [haM, hbM] at hm hM ⊢
    · cases hM
    · cases hM
      refine ⟨overlap_cond2 hab hbM hm, ?_⟩
      rw [keyLt_congr_left hmm]
      exact hB m₂ M hbm hbM
    · cases hM
      refine ⟨hA m M hm haM, ?_⟩
      rw [keyLt_congr_left hmm]
      exact overlap_cond1 hab haM hbm
    · simp only [optMinCmp] at hm hM ⊢
      rcases hcmax : Version.cmp aM bM with h₁ | h₁ | h₁ <;>
        simp only [hcmax] at hm hM ⊢
      · cases hM
        refine ⟨hA m M hm haM, ?_⟩
        rw [keyLt_congr_left hmm]
        exact overlap_cond1 hab haM hbm
      · cases hM
        constructor
        · rw [keyLt_upBit_and]
          refine ⟨hA m M hm haM, ?_⟩
          rw [keyLt_congr_right hcmax]
          exact overlap_cond2 hab hbM hm
        · rw [keyLt_upBit_and]
          constructor
          · rw [keyLt_congr_left hmm]
            exact overlap_cond1 hab haM hbm
          · rw [keyLt_congr_left hmm, keyLt_congr_right hcmax]
            exact hB m₂ bM hbm hbM
      · cases hM
        refine ⟨overlap_cond2 hab hbM hm, ?_⟩
        rw [keyLt_congr_left hmm]
        exact hB m₂ M hbm hbM
  -- optMinCmp = .gt: the minimum comes from a
  · simp only [VersionRange.intersect, hcmin] at hm hM ⊢
    rcases haM : a.max with _ | aM <;> rcases hbM : b.max with _ | bM <;>
      simp only [haM, hbM] at hm hM ⊢
    · cases hM
    · cases hM
      exact overlap_cond2 hab hbM hm
    · cases hM
      exact hA m M hm haM
    · simp only [optMinCmp] at hm hM ⊢
      rcases hcmax : Version.cmp aM bM with h₁ | h₁ | h₁ <;>
        simp only [hcmax] at hm hM ⊢
      · cases hM
        exact hA m M hm haM
      · cases hM
        rw [keyLt_upBit_and]
        refine ⟨hA m M hm haM, ?_⟩
        rw [keyLt_congr_right hcmax]
        exact overlap_cond2 hab hbM hm
      · cases hM
        exact overlap_cond2 hab hbM hm

/-- The parser invariants every specifier handled by this repository
satisfies (spec, section 3): a non-empty release, and at least two release
numbers when the operator is `~=`. -/
def wfSpec (s : VersionSpecifier) : Prop :=
  s.version.release ≠ [] ∧ (s.operator = .TildeEqual → 2 ≤ s.version.release.length)

theorem cmp_update_release (v : Version) (r₂ : List Nat) :
    Version.cmp v { v with release := r₂ } = releaseCmp v.release r₂ := by
  have h1 : preKey { v with release := r₂ } = preKey v := rfl
  have h2 : postKey { v with release := r₂ } = postKey v := rfl
  have h3 : devKey { v with release := r₂ } = devKey v := rfl
  unfold Version.cmp
  rw [h1, h2, h3, natCompare_self, cmp3_refl, cmp2_refl, cmp2_refl, localCmp_refl]
  simp [eq_then, then_eq_right]

theorem rangeOk_spec_ranges {s : VersionSpecifier} (hw : wfSpec s) :
    RangeOk (version_specifier_to_ranges s).1
    ∧ ∀ r₂, (version_specifier_to_ranges s).2 = some r₂ → RangeOk r₂ := by
  obtain ⟨op, v⟩ := s
  obtain ⟨hrel, htilde⟩ := hw
  cases op with
  | Equal =>
    refine ⟨?_, by intro r₂ h; cases h⟩
    intro m M hm hM
    simp only [version_specifier_to_ranges] at hm hM
    cases hm
    cases hM
    exact Or.inr ⟨cmp_refl _, by simp [version_specifier_to_ranges, lowBit, upBit]⟩
  | ExactEqual =>
    refine ⟨?_, by intro r₂ h; cases h⟩
    intro m M hm hM
    simp only [version_specifier_to_ranges] at hm hM
    cases hm
    cases hM
    exact Or.inr ⟨cmp_refl _, by simp [version_specifier_to_ranges, lowBit, upBit]⟩
  | EqualStar =>
    refine ⟨?_, by intro r₂ h; cases h⟩
    intro m M hm hM
    simp only [version_specifier_to_ranges] at hm hM
    cases hm
    cases hM
    exact Or.inl (by rw [cmp_update_release]; exact lt_incrementLast _ hrel)
  | NotEqual =>
    constructor
    · intro m M hm hM
      simp only [version_specifier_to_ranges] at hm
      cases hm
    · intro r₂ h
      simp only [version_specifier_to_ranges] at h
      cases h
      intro m M _ hM
      cases hM
  | NotEqualStar =>
    constructor
    · intro m M hm hM
      simp only [version_specifier_to_ranges] at hm
      cases hm
    · intro r₂ h
      simp only [version_specifier_to_ranges] at h
      cases h
      intro m M _ hM
      cases hM
  | TildeEqual =>
    refine ⟨?_, by intro r₂ h; cases h⟩
    intro m M hm hM
    simp only [version_specifier_to_ranges] at hm hM
    cases hm
    cases hM
    refine Or.inl ?_
    rw [cmp_update_release]
    have h2 : 2 ≤ v.release.length := htilde rfl
    have hp : v.release.dropLast ≠ [] := by
      intro hc
      have := congrArg List.length hc
      simp [List.length_dropLast] at this
      omega
    have := append_lt_incrementLast v.release.dropLast hp (v.release.getLast hrel)
    rwa [List.dropLast_append_getLast hrel] at this
  | LessThan =>
    refine ⟨?_, by intro r₂ h; cases h⟩
    intro m M hm hM
    simp only [version_specifier_to_ranges] at hm
    cases hm
  | LessThanEqual =>
    refine ⟨?_, by intro r₂ h; cases h⟩
    intro m M hm hM
    simp only [version_specifier_to_ranges] at hm
    cases hm
  | GreaterThan =>
    refine ⟨?_, by intro r₂ h; cases h⟩
    intro m M hm hM
    simp only [version_specifier_to_ranges] at hM
    cases hM
  | GreaterThanEqual =>
    refine ⟨?_, by intro r₂ h; cases h⟩
    intro m M hm hM
    simp only [version_specifier_to_ranges] at hM
    cases hM

theorem rangeOk_fold (specs : List VersionSpecifier) :
    ∀ (acc : List VersionRange), (∀ s ∈ specs, wfSpec s) → (∀ r ∈ acc, RangeOk r) →
    ∀ r ∈ specs.foldl
      (fun left_merged left_specifier =>
        let ranges := version_specifier_to_ranges left_specifier
        left_merged.flatMap (fun existing =>
          (if !existing.is_disjoint ranges.1 then [existing.intersect ranges.1] else [])
          ++ (match ranges.2 with
              | some range2 =>
                  if !existing.is_disjoint range2 then [existing.intersect range2] else []
              | none => []))) acc, RangeOk r := by
  induction specs with
  | nil => intro acc _ hacc r hr; exact hacc r hr
  | cons sp specs ih =>
    intro acc hw hacc r hr
    rw [List.foldl_cons] at hr
    refine ih _ (fun s hs => hw s (List.mem_cons_of_mem _ hs)) ?_ r hr
    intro r₂ hr₂
    simp only [List.mem_flatMap] at hr₂
    obtain ⟨existing, hex, hr₂⟩ := hr₂
    have hexOk := hacc existing hex
    have hspOk := rangeOk_spec_ranges (hw sp (List.mem_cons_self _ _))
    rw [List.mem_append] at hr₂
    rcases hr₂ with hr₂ | hr₂
    · rcases hd : existing.is_disjoint (version_specifier_to_ranges sp).1 with h₁ | h₁
      · rw [hd] at hr₂
        simp only [Bool.not_false, if_pos] at hr₂
        rw [List.mem_singleton] at hr₂
        subst hr₂
        exact rangeOk_intersect hexOk hspOk.1 hd
      · rw [hd] at hr₂
        simp at hr₂
    · rcases hsnd : (version_specifier_to_ranges sp).2 with _ | rng₂
      · rw [hsnd] at hr₂
        have hr₃ : r₂ ∈ ([] : List VersionRange) := hr₂
        cases hr₃
      · rw [hsnd] at hr₂
        have hr₃ : r₂ ∈ (if (!existing.is_disjoint rng₂) = true
            then [existing.intersect rng₂] else []) := hr₂
        rcases hd : existing.is_disjoint rng₂ with h₁ | h₁
        · rw [hd] at hr₃
          simp only [Bool.not_false, if_pos] at hr₃
          rw [List.mem_singleton] at hr₃
          subst hr₃
          exact rangeOk_intersect hexOk (hspOk.2 rng₂ hsnd) hd
        · rw [hd] at hr₃
          simp at hr₃

theorem rangeOk_merged {specs : List VersionSpecifier} (hw : ∀ s ∈ specs, wfSpec s) :
    ∀ r ∈ version_specifiers_to_ranges specs, RangeOk r := by
  refine rangeOk_fold specs _ hw ?_
  intro r hr
  rw [List.mem_singleton] at hr
  subst hr
  intro m M hm hM
  cases hm

theorem all_pair_false {R : List VersionRange} {r₀ : VersionRange} (h₀ : r₀ ∈ R)
    (hself : r₀.is_disjoint r₀ = false) :
    (R.all fun left_range => R.all fun right_range =>
      left_range.is_disjoint right_range) = false := by
  rcases h : (R.all fun left_range => R.all fun right_range =>
      left_range.is_disjoint right_range) with h₁ | h₁
  · rfl
  · have h2 := List.all_eq_true.mp h r₀ h₀
    have h3 := List.all_eq_true.mp h2 r₀ h₀
    rw [hself] at h3
    cases h3

theorem is_disjoint_self_specifiers {S : List VersionSpecifier}
    (hw : ∀ s ∈ S, wfSpec s) :
    is_disjoint_version_specifiers S S = (version_specifiers_to_ranges S).isEmpty := by
  unfold is_disjoint_version_specifiers
  cases hR : version_specifiers_to_ranges S with
  | nil => simp
  | cons r₀ rest =>
    have h₀ : r₀ ∈ version_specifiers_to_ranges S := by
      rw [hR]; exact List.mem_cons_self _ _
    have hOk : RangeOk r₀ := rangeOk_merged hw r₀ h₀
    have hself : r₀.is_disjoint r₀ = false := selfOk_iff.mpr hOk
    simp only [List.isEmpty_cons]
    exact all_pair_false (List.mem_cons_self _ _) hself

theorem from_str_star_release {str : String} {v : Version} {star : Bool}
    (h : Version.from_str_star str = some (v, star)) : v.release ≠ [] := by
  simp only [Version.from_str_star] at h
  split at h
  · next n ns _ =>
    cases h
    simp
  · cases h

theorem from_str_release {str : String} {v : Version}
    (h : Version.from_str str = some v) : v.release ≠ [] := by
  unfold Version.from_str at h
  split at h
  · next v₂ heq =>
    cases h
    exact from_str_star_release heq
  · cases h

theorem new_wfSpec {op₄ : Operator} {rver : Version} {rstar : Bool}
    {spec : VersionSpecifier} (h : VersionSpecifier.new op₄ rver rstar = some spec)
    (hrel : rver.release ≠ []) : wfSpec spec := by
  unfold VersionSpecifier.new at h
  cases rstar with
  | true =>
    simp only [if_pos] at h
    cases op₄ <;> first
      | (injection h with h; subst h; exact ⟨hrel, fun ht => by simp at ht⟩)
      | cases h
  | false =>
    simp only [Bool.false_eq_true, if_false] at h
    split at h
    · cases h
    · next hguard =>
      injection h with h
      subst h
      refine ⟨hrel, fun ht => ?_⟩
      have ht₂ : op₄ = Operator.TildeEqual := ht
      subst ht₂
      simp at hguard
      show 2 ≤ rver.release.length
      omega

theorem normalize_wfSpec {e : MarkerExpression} {f : MarkerValueVersion}
    {vs : List VersionSpecifier}
    (h : normalize_marker_expression e = some (.MarkerEnvVersion f vs)) :
    ∀ s ∈ vs, wfSpec s := by
  obtain ⟨lv, op, rv⟩ := e
  cases lv with
  | MarkerEnvVersion l_key =>
    cases rv with
    | QuotedString r_string =>
      simp only [normalize_marker_expression] at h
      rcases hp : Version.from_str_star r_string with _ | ⟨rver, rstar⟩ <;> simp only [hp] at h
      · cases h
      · rcases hop : to_pep440_operator op with _ | op₄ <;> simp only [hop] at h
        · cases h
        · rcases hnew : VersionSpecifier.new op₄ rver rstar with _ | spec <;> simp only [hnew] at h
          · cases h
          · cases h
            intro s hs
            rw [List.mem_singleton] at hs
            subst hs
            exact new_wfSpec hnew (from_str_star_release hp)
    | MarkerEnvVersion r_key => exact absurd h (by simp [normalize_marker_expression])
    | MarkerEnvString r_key => exact absurd h (by simp [normalize_marker_expression])
    | Extra => exact absurd h (by simp [normalize_marker_expression])
  | MarkerEnvString l_key =>
    cases rv with
    | QuotedString r_string =>
      simp only [normalize_marker_expression] at h
      rcases hop : NormalizedMarkerEqualityOperator.from_marker op with _ | nop <;>
        simp only [hop] at h
      · cases h
      · exact absurd h (by simp)
    | MarkerEnvVersion r_key => exact absurd h (by simp [normalize_marker_expression])
    | MarkerEnvString r_key => exact absurd h (by simp [normalize_marker_expression])
    | Extra => exact absurd h (by simp [normalize_marker_expression])
  | Extra =>
    cases rv with
    | QuotedString r_string =>
      simp only [normalize_marker_expression] at h
      rcases hop : NormalizedExtraEqualityOperator.from_marker op with _ | nop <;>
        simp only [hop] at h
      · cases h
      · exact absurd h (by simp)
    | MarkerEnvVersion r_key => exact absurd h (by simp [normalize_marker_expression])
    | MarkerEnvString r_key => exact absurd h (by simp [normalize_marker_expression])
    | Extra => exact absurd h (by simp [normalize_marker_expression])
  | QuotedString l_string =>
    cases rv with
    | MarkerEnvVersion r_key =>
      simp only [normalize_marker_expression] at h
      rcases hp : Version.from_str l_string with _ | lver <;> simp only [hp] at h
      · cases h
      · have hrel := from_str_release hp
        by_cases he : lver.epoch ≠ 0
        · rw [if_pos he] at h; cases h
        · rw [if_neg he] at h
          by_cases hl : lver.localSeg ≠ []
          · rw [if_pos hl] at h; cases h
          · rw [if_neg hl] at h
            rcases hi : invert_and_normalize_version_operator op lver with _ | vsp <;>
              simp only [hi] at h
            · cases h
            · cases h
              intro s hs
              cases op <;> simp only [invert_and_normalize_version_operator] at hi <;>
                cases hi <;>
                simp only [List.mem_cons, List.not_mem_nil, or_false] at hs <;>
                first
                | (subst hs; exact ⟨hrel, fun ht => by simp at ht⟩)
                | (rcases hs with hs | hs <;> subst hs
                   · exact ⟨hrel, fun ht => by simp at ht⟩
                   · exact ⟨by simp [Version.from_release], fun ht => by simp at ht⟩)
    | MarkerEnvString r_key => exact absurd h (by simp [normalize_marker_expression])
    | Extra =>
      simp only [normalize_marker_expression] at h
      rcases hop : NormalizedExtraEqualityOperator.from_marker op with _ | nop <;>
        simp only [hop] at h
      · cases h
      · exact absurd h (by simp)
    | QuotedString r_string =>
      exact absurd h (by simp [normalize_marker_expression])

/-! ## Claim C10, counterexample -/

/-- C10 (counterexample): the atom `"1" ~= python_version` normalizes to
the specifier set `<= 1, > 1`, whose merged range union is empty, so
`is_disjoint_marker_expression` reports the atom disjoint from itself. -/
theorem C10_counterexample :
    is_disjoint_marker_expression tildeSelfAtom tildeSelfAtom = true := by
  decide

/-- C10 (amended): an atom is reported disjoint from itself exactly when it
normalizes to a version constraint whose merged range union is empty (as
happens for the inverted `~=` form); every other atom — string equality,
extra, soft-invalid, or a version constraint with a non-empty merged range
union — is never self-disjoint. -/
theorem C10_amended (e : MarkerExpression) :
    is_disjoint_marker_expression e e =
      (match normalize_marker_expression e with
       | some (.MarkerEnvVersion _ version_specifiers) =>
           (version_specifiers_to_ranges version_specifiers).isEmpty
       | _ => false) := by
  cases hn : normalize_marker_expression e with
  | none => simp [is_disjoint_marker_expression, hn]
  | some ne =>
    cases ne with
    | MarkerEnvVersion f vs =>
      have hw := normalize_wfSpec hn
      simp only [is_disjoint_marker_expression, hn]
      rw [is_disjoint_self_specifiers hw]
      simp
    | MarkerEnvString mv nop =>
      simp only [is_disjoint_marker_expression, hn]
      cases nop <;> simp
    | Extra nop val =>
      simp only [is_disjoint_marker_expression, hn]
      cases nop <;> simp

end PyPI
